import Mathlib

/-!
Verification of the json-rust recursive-descent parser (src/parser.rs).

The parser is embedded shallowly: the input `&str` becomes a `List Nat` of
bytes, the cursor is an explicit index, every Rust function or macro loop
becomes a fueled Lean function returning `Res`, and `f64` is modelled by
`F64`, an exact binary64 model (sign-preserving zero, round-to-nearest-even)
over unnormalised integer fractions.  Rust release-mode wrapping arithmetic
on `u64`/`i32` is modelled with explicit `% 2^w`.
-/

set_option exponentiation.threshold 4000
set_option maxRecDepth 100000

/-! ## Byte predicates and Rust str helpers -/

/-- ASCII whitespace as matched by the parser: byte values 9-13 and 32. -/
def isWs (b : Nat) : Bool := (9 ≤ b && b ≤ 13) || b == 32

/-- ASCII digit byte. -/
def isDigitB (b : Nat) : Bool := 48 ≤ b && b ≤ 57

/-- UTF-8 continuation byte (0x80..0xBF). -/
def isCont (b : Nat) : Bool := 128 ≤ b && b < 192

/-- Number of chars of a valid UTF-8 byte sequence: bytes that are not
continuation bytes (models Rust `str::chars().count()`). -/
def charCount (bs : List Nat) : Nat := (bs.filter (fun b => !(isCont b))).length

/-- Split a byte sequence at every newline byte (10); always returns at
least one (possibly empty) segment. -/
def splitNl : List Nat → List (List Nat)
  | [] => [[]]
  | 10 :: r => [] :: splitNl r
  | b :: r =>
    match splitNl r with
    | s :: ss => (b :: s) :: ss
    | [] => [[b]]

/-- Strip one trailing carriage return (13), as Rust `lines` does for
newline-terminated segments. -/
def stripCr (l : List Nat) : List Nat := if l.getLast? = some 13 then l.dropLast else l

/-- Model of Rust `str::lines` on bytes: split at newlines, drop a final
empty segment produced by a trailing newline, and strip one `\r` from each
newline-terminated segment. -/
def rustLines (bs : List Nat) : List (List Nat) :=
  if bs = [] then []
  else if bs.getLast? = some 10 then (splitNl bs).dropLast.map stripCr
  else
    match (splitNl bs).reverse with
    | [] => []
    | last :: initRev => (initRev.reverse.map stripCr) ++ [last]

/-- Line number as computed by `source_position_from_index`:
`bytes.lines().count()`. -/
def posLine (bs : List Nat) : Nat := (rustLines bs).length

/-- Column as computed by `source_position_from_index`:
`bytes.lines().last().map_or(1, |line| line.chars().count() + 1)`. -/
def posCol (bs : List Nat) : Nat :=
  match (rustLines bs).getLast? with
  | none => 1
  | some l => charCount l + 1

/-- Model of `source_position_from_index`: `source.split_at(index-1)` and
line/column over the left part.  `none` models the panics of the Rust code:
`index = 0` underflows `usize`, and `split_at` panics when `index-1` is out
of bounds or not a char boundary. -/
def source_position_from_index (src : List Nat) (index : Nat) : Option (Nat × Nat) :=
  if index = 0 then none
  else if src.length + 1 < index then none
  else if h : index - 1 < src.length then
    if isCont src[index - 1] then none
    else some (posLine (src.take (index - 1)), posCol (src.take (index - 1)))
  else some (posLine (src.take (index - 1)), posCol (src.take (index - 1)))

/-! ## UTF-8 decoding (for `str::from_utf8` and `chars().next()` in
`unexpected_character`) -/

/-- Decode the first UTF-8 character of a byte list, returning its codepoint
and the remaining bytes; `none` when the prefix is not valid UTF-8. -/
def utf8First : List Nat → Option (Nat × List Nat)
  | [] => none
  | b :: r =>
    if b ≤ 0x7F then some (b, r)
    else if 0xC2 ≤ b ∧ b ≤ 0xDF then
      match r with
      | c :: r' => if isCont c then some (((b - 0xC0) <<< 6) + (c - 0x80), r') else none
      | [] => none
    else if 0xE0 ≤ b ∧ b ≤ 0xEF then
      match r with
      | c1 :: c2 :: r' =>
        let lo1 : Nat := if b = 0xE0 then 0xA0 else 0x80
        let hi1 : Nat := if b = 0xED then 0x9F else 0xBF
        if (lo1 ≤ c1 ∧ c1 ≤ hi1) ∧ isCont c2 then
          some (((b - 0xE0) <<< 12) + ((c1 - 0x80) <<< 6) + (c2 - 0x80), r')
        else none
      | _ => none
    else if 0xF0 ≤ b ∧ b ≤ 0xF4 then
      match r with
      | c1 :: c2 :: c3 :: r' =>
        let lo1 : Nat := if b = 0xF0 then 0x90 else 0x80
        let hi1 : Nat := if b = 0xF4 then 0x8F else 0xBF
        if (lo1 ≤ c1 ∧ c1 ≤ hi1) ∧ isCont c2 ∧ isCont c3 then
          some (((b - 0xF0) <<< 18) + ((c1 - 0x80) <<< 12) + ((c2 - 0x80) <<< 6) + (c3 - 0x80), r')
        else none
      | _ => none
    else none

/-- One validation step over an optional remaining byte list. -/
def utf8Step : Option (List Nat) → Option (List Nat)
  | none => none
  | some [] => some []
  | some l => (utf8First l).map (fun p => p.2)

/-- Validity of a byte buffer of length at most 4 (the buffers handed to
`str::from_utf8` in `unexpected_character`): four decode steps must consume
everything. -/
def utf8Valid4 (bs : List Nat) : Bool :=
  utf8Step (utf8Step (utf8Step (utf8Step (some bs)))) == some []

/-! ## Errors, values, results -/

/-- The error type `JsonError` of the library, with the unexpected character
carried as a codepoint and the 1-based-intended line/column. -/
inductive JsonError where
  | unexpectedEndOfJson
  | unexpectedCharacter (ch line column : Nat)
  | failedUtf8Parsing
deriving DecidableEq, Repr

/-- Exact model of IEEE-754 binary64 values: `fin m e` is the finite value
`m * 2^e` with `m` odd (or `m = 0, e = 0` for positive zero); negative zero
is separate so the sign of zero is observable. -/
inductive F64 where
  | fin (m : Int) (e : Int)
  | negZero
  | inf
  | negInf
  | nan
deriving DecidableEq, Repr

/-- Unnormalised fraction `num / den` (`den` intended positive). -/
structure Frac where
  num : Int
  den : Nat
deriving Repr

/-- The value tree `JsonValue`: strings are owned byte lists, objects are the
`BTreeMap` represented as an association list sorted by key. -/
inductive JsonValue where
  | null
  | boolean (b : Bool)
  | number (n : F64)
  | string (s : List Nat)
  | array (xs : List JsonValue)
  | object (members : List (List Nat × JsonValue))
deriving Repr

/-- Outcome of a parser step: success with value and next index, a returned
`JsonError`, a Rust panic, or fuel exhaustion of the model. -/
inductive Res (α : Type) where
  | ok (val : α) (idx : Nat)
  | err (e : JsonError)
  | crashed
  | fuelOut
deriving Repr

/-- Sequencing of parser steps, threading the cursor. -/
def Res.bind : Res α → (α → Nat → Res β) → Res β
  | .ok a i, f => f a i
  | .err e, _ => .err e
  | .crashed, _ => .crashed
  | .fuelOut, _ => .fuelOut

/-! ## Binary64 rounding -/

/-- Fueled floor of log2 (structural so the kernel can evaluate it);
`log2fuel (n+1) n` is exact for every `n`. -/
def log2fuel : Nat → Nat → Nat
  | 0, _ => 0
  | fuel + 1, n => if n ≤ 1 then 0 else log2fuel fuel (n / 2) + 1

/-- Floor of log2, total and kernel-computable. -/
def natLog2 (n : Nat) : Nat := log2fuel (n + 1) n

/-- Round `a / b` (with `b > 0`) to the nearest integer, ties to even. -/
def rhe (a b : Nat) : Nat :=
  let q := a / b
  let r := a % b
  if 2 * r < b then q else if b < 2 * r then q + 1 else if q % 2 = 0 then q else q + 1

/-- Strip factors of two: `oddify (m+1) m e` returns `(m', e')` with
`m' * 2^e' = m * 2^e` and `m'` odd (for `m > 0`). -/
def oddify : Nat → Nat → Int → Nat × Int
  | 0, m, e => (m, e)
  | fuel + 1, m, e => if m % 2 = 0 && m ≠ 0 then oddify fuel (m / 2) (e + 1) else (m, e)

/-- Round the positive rational `n / d` to binary64: `none` is overflow to
infinity, `some (0, 0)` underflow to zero, otherwise the odd mantissa and
exponent.  Follows IEEE-754 round-to-nearest-even with subnormals. -/
def roundPos (n d : Nat) : Option (Nat × Int) :=
  let t := n * 2 ^ 1200 / d
  if t = 0 then some (0, 0)
  else
    let k : Int := (natLog2 t : Int) - 1200
    let sub : Int := max (k - 52) (-1074)
    let sn : Nat := if 0 ≤ sub then n else n * 2 ^ (-sub).toNat
    let sd : Nat := if 0 ≤ sub then d * 2 ^ sub.toNat else d
    let m := rhe sn sd
    if m = 0 then some (0, 0)
    else if 0 ≤ sub ∧ 2 ^ 1024 ≤ m * 2 ^ sub.toNat then none
    else some (oddify (m + 1) m sub)

/-- Round an exact fraction to binary64 (round-to-nearest-even); the zero
produced by rounding a nonzero value keeps IEEE sign semantics. -/
def froundF (q : Frac) : F64 :=
  if q.num = 0 then .fin 0 0
  else if 0 < q.num then
    match roundPos q.num.toNat q.den with
    | none => .inf
    | some (0, _) => .fin 0 0
    | some (m, e) => .fin (m : Int) e
  else
    match roundPos (-q.num).toNat q.den with
    | none => .negInf
    | some (0, _) => .negZero
    | some (m, e) => .fin (-(m : Int)) e

/-- Exact rational value of a finite `F64` (`none` for infinities and NaN). -/
def F64.toFrac : F64 → Option Frac
  | .fin m e => some (if 0 ≤ e then ⟨m * 2 ^ e.toNat, 1⟩ else ⟨m, 2 ^ (-e).toNat⟩)
  | .negZero => some ⟨0, 1⟩
  | _ => none

/-- Sign bit of an `F64` (true = negative; NaN counted positive). -/
def F64.isNegSign : F64 → Bool
  | .fin m _ => m < 0
  | .negZero => true
  | .negInf => true
  | _ => false

/-- IEEE negation; note `-0.0` and `0.0` swap. -/
def F64.neg : F64 → F64
  | .fin 0 _ => .negZero
  | .fin m e => .fin (-m) e
  | .negZero => .fin 0 0
  | .inf => .negInf
  | .negInf => .inf
  | .nan => .nan

/-- IEEE addition (round-to-nearest-even).  The parser only ever adds
non-negative finite values; special cases follow IEEE-754. -/
def F64.add (x y : F64) : F64 :=
  match x, y with
  | .nan, _ => .nan
  | _, .nan => .nan
  | .inf, .negInf => .nan
  | .negInf, .inf => .nan
  | .inf, _ => .inf
  | _, .inf => .inf
  | .negInf, _ => .negInf
  | _, .negInf => .negInf
  | .negZero, .negZero => .negZero
  | x, y =>
    match x.toFrac, y.toFrac with
    | some a, some b => froundF ⟨a.num * (b.den : Int) + b.num * (a.den : Int), a.den * b.den⟩
    | _, _ => .nan

/-- Absolute value of the exact fraction of a finite or zero `F64`. -/
def F64.absFrac : F64 → Frac
  | .fin m e => if 0 ≤ e then ⟨m.natAbs * 2 ^ e.toNat, 1⟩ else ⟨(m.natAbs : Int), 2 ^ (-e).toNat⟩
  | _ => ⟨0, 1⟩

/-- IEEE multiplication (round-to-nearest-even), sign-correct including
signed zeros. -/
def F64.mul (x y : F64) : F64 :=
  match x, y with
  | .nan, _ => .nan
  | _, .nan => .nan
  | .inf, .fin 0 _ => .nan
  | .inf, .negZero => .nan
  | .fin 0 _, .inf => .nan
  | .negZero, .inf => .nan
  | .negInf, .fin 0 _ => .nan
  | .negInf, .negZero => .nan
  | .fin 0 _, .negInf => .nan
  | .negZero, .negInf => .nan
  | .inf, y => if y.isNegSign then .negInf else .inf
  | .negInf, y => if y.isNegSign then .inf else .negInf
  | x, .inf => if x.isNegSign then .negInf else .inf
  | x, .negInf => if x.isNegSign then .inf else .negInf
  | x, y =>
    let a := x.absFrac
    let b := y.absFrac
    let r := froundF ⟨a.num * b.num, a.den * b.den⟩
    if x.isNegSign != y.isNegSign then r.neg else r

/-- IEEE division (round-to-nearest-even); the parser only divides a positive
finite value by `10.0`. -/
def F64.div (x y : F64) : F64 :=
  match x, y with
  | .nan, _ => .nan
  | _, .nan => .nan
  | .inf, .inf => .nan
  | .inf, .negInf => .nan
  | .negInf, .inf => .nan
  | .negInf, .negInf => .nan
  | .inf, y => if y.isNegSign then .negInf else .inf
  | .negInf, y => if y.isNegSign then .inf else .negInf
  | x, .inf => if x.isNegSign then .negZero else .fin 0 0
  | x, .negInf => if x.isNegSign then .fin 0 0 else .negZero
  | x, y =>
    let a := x.absFrac
    let b := y.absFrac
    if b.num = 0 then
      if a.num = 0 then .nan
      else if x.isNegSign != y.isNegSign then .negInf else .inf
    else
      let r := froundF ⟨a.num * (b.den : Int), a.den * b.num.toNat⟩
      if x.isNegSign != y.isNegSign then r.neg else r

/-- Model of Rust `f64::powi` on a finite base: the correctly rounded value
of the exact rational power.  (Rust leaves the precision of `powi`
unspecified; every implementation agrees on the small exponents exercised
here, e.g. `10^2 = 100` exactly.) -/
def F64.powi (x : F64) (e : Int) : F64 :=
  match x.toFrac with
  | some a =>
    if 0 ≤ e then froundF ⟨a.num ^ e.toNat, a.den ^ e.toNat⟩
    else if a.num = 0 then .inf
    else
      let k := (-e).toNat
      let n := a.num ^ k
      if 0 < n then froundF ⟨((a.den : Int)) ^ k, n.toNat⟩
      else froundF ⟨-(((a.den : Int)) ^ k), (-n).toNat⟩
  | none => x

/-- The literal `10.0`. -/
def f64Ten : F64 := .fin 5 1

/-- The literal `0.1` (the nearest double to one tenth). -/
def f64Tenth : F64 := froundF ⟨1, 10⟩

/-- Rust `num as f64` for an unsigned integer: round to nearest. -/
def u64ToF64 (n : Nat) : F64 := froundF ⟨(n : Int), 1⟩

/-! ## Wrapping machine arithmetic -/

/-- Wrapping `u64` shift-left. -/
def wShl (x k : Nat) : Nat := (x <<< k) % 18446744073709551616

/-- Wrapping `u64` addition. -/
def wAdd (x y : Nat) : Nat := (x + y) % 18446744073709551616

/-- The accumulator update `(num << 1) + (num << 3) + digit` on `u64`. -/
def u64next (num d : Nat) : Nat := wAdd (wAdd (wShl num 1) (wShl num 3)) d

/-- Wrap an integer into `i32`. -/
def wrapI32 (x : Int) : Int := (x + 2 ^ 31) % 2 ^ 32 - 2 ^ 31

/-- Wrapping `i32` shift-left. -/
def shlI32 (x : Int) (k : Nat) : Int := wrapI32 (x * 2 ^ k)

/-- Wrapping `i32` addition. -/
def addI32 (x y : Int) : Int := wrapI32 (x + y)

/-- The exponent update `(e << 1) + (e << 3) + digit` on `i32`. -/
def i32next (e : Int) (d : Nat) : Int := addI32 (addI32 (shlI32 e 1) (shlI32 e 3)) (d : Int)

/-! ## The parser

Every Rust function or macro loop becomes a function over the byte list
`src` and cursor `i`.  `next_byte!` is `src[i]?`: `none` at end of input.
Loops and the mutual value/array/object recursion carry explicit fuel
(structural, so the kernel can evaluate everything); `Res.fuelOut` never
occurs for the fuel chosen by `parse`. -/

/-- Finish `unexpected_character` once the continuation bytes are in `buf`:
`str::from_utf8` then `chars().next().unwrap()`.  An invalid buffer is
`FailedUtf8Parsing`; a valid but empty buffer makes `unwrap` panic. -/
def ucFinish (line col : Nat) (buf : List Nat) : Res α :=
  if utf8Valid4 buf then
    match utf8First buf with
    | some (cp, _) => .err (.unexpectedCharacter cp line col)
    | none => .crashed
  else .err .failedUtf8Parsing

/-- Model of `unexpected_character`, called with the cursor `i` already past
the offending byte `b`.  The position is computed first; then a multi-byte
lead is completed by consuming continuation bytes.  The 2-byte arm tests
`byte & 0xE0 == 0xCE` exactly as the source does — a mask no byte satisfies,
so 2-byte leads fall through with an empty buffer. -/
def unexpected_character (src : List Nat) (i : Nat) (b : Nat) : Res α :=
  match source_position_from_index src i with
  | none => .crashed
  | some (line, col) =>
    if b &&& 0x80 ≠ 0 then
      if b &&& 0xE0 = 0xCE then
        match src[i]? with
        | none => .err .unexpectedEndOfJson
        | some b1 => ucFinish line col [b, b1]
      else if b &&& 0xF0 = 0xE0 then
        match src[i]?, src[i + 1]? with
        | some b1, some b2 => ucFinish line col [b, b1, b2]
        | _, _ => .err .unexpectedEndOfJson
      else if b &&& 0xF8 = 0xF0 then
        match src[i]?, src[i + 1]?, src[i + 2]? with
        | some b1, some b2, some b3 => ucFinish line col [b, b1, b2, b3]
        | _, _, _ => .err .unexpectedEndOfJson
      else ucFinish line col []
    else .err (.unexpectedCharacter b line col)

/-- The inner loop of `consume_whitespace!`: skip whitespace, return the
first non-whitespace byte (consumed). -/
def wsLoop : Nat → List Nat → Nat → Res Nat
  | 0, _, _ => .fuelOut
  | fuel + 1, src, i =>
    match src[i]? with
    | none => .err .unexpectedEndOfJson
    | some b => if isWs b then wsLoop fuel src (i + 1) else .ok b (i + 1)

/-- `consume_whitespace!(parser, ch)` with `ch` already consumed and the
cursor just past it. -/
def consumeWs (fuel : Nat) (src : List Nat) (i : Nat) (ch : Nat) : Res Nat :=
  if isWs ch then wsLoop fuel src i else .ok ch i

/-- `expect!(parser, byte)`: read a byte, skip whitespace, require `b`. -/
def expectByte (fuel : Nat) (src : List Nat) (i : Nat) (b : Nat) : Res Unit :=
  match src[i]? with
  | none => .err .unexpectedEndOfJson
  | some ch =>
    (consumeWs fuel src (i + 1) ch).bind fun ch i =>
      if ch = b then .ok () i else unexpected_character src i ch

/-- `sequence!(parser, ...)`: consume the exact bytes of a literal. -/
def seqBytes (src : List Nat) (i : Nat) : List Nat → Res Unit
  | [] => .ok () i
  | b :: rest =>
    match src[i]? with
    | none => .err .unexpectedEndOfJson
    | some ch => if ch = b then seqBytes src (i + 1) rest else unexpected_character src (i + 1) ch

/-- `read_hexdec_digit`. -/
def read_hexdec_digit (src : List Nat) (i : Nat) : Res Nat :=
  match src[i]? with
  | none => .err .unexpectedEndOfJson
  | some ch =>
    if 48 ≤ ch ∧ ch ≤ 57 then .ok (ch - 48) (i + 1)
    else if 97 ≤ ch ∧ ch ≤ 102 then .ok (ch + 10 - 97) (i + 1)
    else if 65 ≤ ch ∧ ch ≤ 70 then .ok (ch + 10 - 65) (i + 1)
    else unexpected_character src (i + 1) ch

/-- `read_hexdec_codepoint`: four hex digits combined by shifts. -/
def read_hexdec_codepoint (src : List Nat) (i : Nat) : Res Nat :=
  (read_hexdec_digit src i).bind fun d1 i =>
    (read_hexdec_digit src i).bind fun d2 i =>
      (read_hexdec_digit src i).bind fun d3 i =>
        (read_hexdec_digit src i).bind fun d4 i =>
          .ok ((d1 <<< 12) ||| (d2 <<< 8) ||| (d3 <<< 4) ||| d4) i

/-- The UTF-8 re-encoding match at the end of `read_codepoint`, returning
the bytes pushed into the buffer. -/
def utf8Encode (cp : Nat) (i : Nat) : Res (List Nat) :=
  if cp ≤ 0x7F then .ok [cp] i
  else if cp ≤ 0x7FF then
    .ok [((cp >>> 6) &&& 0x1F) ||| 0xC0, (cp &&& 0x3F) ||| 0x80] i
  else if cp ≤ 0xFFFF then
    .ok [((cp >>> 12) &&& 0x0F) ||| 0xE0, ((cp >>> 6) &&& 0x3F) ||| 0x80, (cp &&& 0x3F) ||| 0x80] i
  else if cp ≤ 0x10FFFF then
    .ok [((cp >>> 18) &&& 0x07) ||| 0xF0, ((cp >>> 12) &&& 0x3F) ||| 0x80,
         ((cp >>> 6) &&& 0x3F) ||| 0x80, (cp &&& 0x3F) ||| 0x80] i
  else .err .failedUtf8Parsing

/-- `read_codepoint`: a `\u` escape, with the UTF-16 surrogate-pair logic;
returns the UTF-8 bytes appended to the buffer. -/
def read_codepoint (src : List Nat) (i : Nat) : Res (List Nat) :=
  (read_hexdec_codepoint src i).bind fun cp i =>
    if cp ≤ 0xD7FF then utf8Encode cp i
    else if cp ≤ 0xDBFF then
      -- high surrogate: `sequence!(self, b'\\', b'u')` then the low half
      match src[i]? with
      | none => .err .unexpectedEndOfJson
      | some c1 =>
        if c1 ≠ 92 then unexpected_character src (i + 1) c1
        else
          match src[i + 1]? with
          | none => .err .unexpectedEndOfJson
          | some c2 =>
            if c2 ≠ 117 then unexpected_character src (i + 2) c2
            else
              (read_hexdec_codepoint src (i + 2)).bind fun lower i =>
                if 0xDC00 ≤ lower ∧ lower ≤ 0xDFFF then
                  utf8Encode ((((cp - 0xD800) <<< 10) ||| (lower - 0xDC00)) + 0x10000) i
                else .err .failedUtf8Parsing
    else if 0xE000 ≤ cp ∧ cp ≤ 0xFFFF then utf8Encode cp i
    else .err .failedUtf8Parsing

/-- The escape-table `match` of `read_complex_string` (everything except
`u`). -/
def escMap (esc : Nat) : Option Nat :=
  if esc = 34 ∨ esc = 92 ∨ esc = 47 then some esc
  else if esc = 98 then some 8
  else if esc = 102 then some 12
  else if esc = 116 then some 9
  else if esc = 114 then some 13
  else if esc = 110 then some 10
  else none

/-- The loop of `read_complex_string`: `ch` is the current byte, `buf` the
accumulated string bytes. -/
def complexLoop : Nat → List Nat → Nat → Nat → List Nat → Res (List Nat)
  | 0, _, _, _, _ => .fuelOut
  | fuel + 1, src, i, ch, buf =>
    if ch = 34 then .ok buf i
    else if ch = 92 then
      match src[i]? with
      | none => .err .unexpectedEndOfJson
      | some esc =>
        if esc = 117 then
          (read_codepoint src (i + 1)).bind fun delta i =>
            match src[i]? with
            | none => .err .unexpectedEndOfJson
            | some ch' => complexLoop fuel src (i + 1) ch' (buf ++ delta)
        else
          match escMap esc with
          | some b =>
            match src[i + 1]? with
            | none => .err .unexpectedEndOfJson
            | some ch' => complexLoop fuel src (i + 2) ch' (buf ++ [b])
          | none => unexpected_character src (i + 1) esc
    else
      match src[i]? with
      | none => .err .unexpectedEndOfJson
      | some ch' => complexLoop fuel src (i + 1) ch' (buf ++ [ch])

/-- `expect_string!`: fast scan from `start` (the byte after the opening
quote); on a backslash, switch to `read_complex_string` seeded with the
bytes scanned so far. -/
def expect_string : Nat → List Nat → Nat → Nat → Res (List Nat)
  | 0, _, _, _ => .fuelOut
  | fuel + 1, src, start, i =>
    match src[i]? with
    | none => .err .unexpectedEndOfJson
    | some ch =>
      if ch = 34 then .ok ((src.drop start).take (i - start)) (i + 1)
      else if ch = 92 then complexLoop fuel src (i + 1) 92 ((src.drop start).take (i - start))
      else expect_string fuel src start (i + 1)

/-- The `read_num!` loop of `read_big_number`: `num = num * 10.0 + digit`. -/
def bigNumLoop : Nat → List Nat → Nat → F64 → Res F64
  | 0, _, _, _ => .fuelOut
  | fuel + 1, src, i, num =>
    match src[i]? with
    | none => .ok num i
    | some ch =>
      if isDigitB ch then
        bigNumLoop fuel src (i + 1) (F64.add (F64.mul num f64Ten) (froundF ⟨(ch - 48 : Nat), 1⟩))
      else .ok num i

/-- The `read_num!` loop of the fraction part: `num += digit * precision;
precision /= 10.0`. -/
def fracLoop : Nat → List Nat → Nat → F64 → F64 → Res F64
  | 0, _, _, _, _ => .fuelOut
  | fuel + 1, src, i, num, precision =>
    match src[i]? with
    | none => .ok num i
    | some ch =>
      if isDigitB ch then
        fracLoop fuel src (i + 1) (F64.add num (F64.mul (froundF ⟨(ch - 48 : Nat), 1⟩) precision))
          (F64.div precision f64Ten)
      else .ok num i

/-- The `read_num!` loop of the exponent: `e = (e << 1) + (e << 3) + digit`
on `i32`. -/
def expLoop : Nat → List Nat → Nat → Int → Res Int
  | 0, _, _, _ => .fuelOut
  | fuel + 1, src, i, e =>
    match src[i]? with
    | none => .ok e i
    | some ch =>
      if isDigitB ch then expLoop fuel src (i + 1) (i32next e (ch - 48))
      else .ok e i

/-- The tail of the exponent after the sign has been handled: the first
digit (required) and the digit loop, then `num *= 10f64.powi(e * sign)`. -/
def expSignTail (fuel : Nat) (src : List Nat) (i2 : Nat) (sign : Int) (num : F64) : Res F64 :=
  match src[i2]? with
  | none => .err .unexpectedEndOfJson
  | some dch =>
    if isDigitB dch then
      (expLoop fuel src (i2 + 1) ((dch - 48 : Nat) : Int)).bind fun e i =>
        .ok (F64.mul num (F64.powi f64Ten (wrapI32 (e * sign)))) i
    else unexpected_character src (i2 + 1) dch

/-- The exponent half of `read_number_with_fraction`: an optional `e`/`E`,
then the sign match (`-`/`+` consume a byte, anything else is pushed back),
then at least one digit. -/
def numExponent (fuel : Nat) (src : List Nat) (i : Nat) (num : F64) : Res F64 :=
  match src[i]? with
  | none => .ok num i
  | some ch2 =>
    if ch2 = 101 ∨ ch2 = 69 then
      match src[i + 1]? with
      | none => .err .unexpectedEndOfJson
      | some sch =>
        if sch = 45 then expSignTail fuel src (i + 2) (-1) num
        else if sch = 43 then expSignTail fuel src (i + 2) 1 num
        else expSignTail fuel src (i + 1) 1 num
    else .ok num i

/-- `read_number_with_fraction`: optional fraction digits after `.`, then
the optional exponent. -/
def read_number_with_fraction (fuel : Nat) (src : List Nat) (i : Nat) (num0 : F64) : Res F64 :=
  match src[i]? with
  | none => .ok num0 i
  | some ch =>
    (if ch = 46 then fracLoop fuel src (i + 1) num0 f64Tenth else .ok num0 i).bind fun num i =>
      numExponent fuel src i num

/-- `read_big_number`: keep reading digits in floating point, then continue
with fraction and exponent. -/
def read_big_number (fuel : Nat) (src : List Nat) (i : Nat) (num : F64) : Res F64 :=
  (bigNumLoop fuel src i num).bind fun num i => read_number_with_fraction fuel src i num

/-- The loop of `expect_number!`: `num` is the `u64` accumulator, `digits`
the iteration cap; at 18 the scanner switches to `read_big_number`. -/
def expect_number : Nat → List Nat → Nat → Nat → Nat → Res F64
  | 0, _, _, _, _ => .fuelOut
  | fuel + 1, src, i, num, digits =>
    if digits = 18 then read_big_number fuel src i (u64ToF64 num)
    else
      match src[i]? with
      | none => .ok (u64ToF64 num) i
      | some ch =>
        if isDigitB ch then expect_number fuel src (i + 1) (u64next num (ch - 48)) (digits + 1)
        else if ch = 46 ∨ ch = 101 ∨ ch = 69 then
          read_number_with_fraction fuel src i (u64ToF64 num)
        else .ok (u64ToF64 num) i

/-- Bytewise lexicographic order on keys (the `Ord` of Rust `String`). -/
def lexLt : List Nat → List Nat → Bool
  | [], [] => false
  | [], _ :: _ => true
  | _ :: _, [] => false
  | a :: as', b :: bs' => a < b || (a == b && lexLt as' bs')

/-- Insert into the sorted association list modelling `BTreeMap::insert`:
keys ordered bytewise, an existing key's value is replaced. -/
def btreeInsert : List (List Nat × α) → List Nat → α → List (List Nat × α)
  | [], k, v => [(k, v)]
  | (k', v') :: rest, k, v =>
    if lexLt k k' then (k, v) :: (k', v') :: rest
    else if k = k' then (k, v) :: rest
    else (k', v') :: btreeInsert rest k v

/-- Lookup in the association list modelling `BTreeMap::get`. -/
def lookupKey : List (List Nat × α) → List Nat → Option α
  | [], _ => none
  | (k', v') :: rest, k => if k = k' then some v' else lookupKey rest k

/-- Continuation kinds of the mutually recursive value/array/object
grammar (`expect_value!` / `read_array` / `read_object`), encoded as one
fueled function `pstep` so that the kernel can evaluate it. -/
inductive PK where
  | value
  | dispatch (ch : Nat)
  | arrayFirst
  | arrayNext (acc : List JsonValue)
  | objectFirst
  | objectNext (obj : List (List Nat × JsonValue))

/-- The recursive heart of the parser.  `PK.value` is `expect_value!` (read
a byte, skip whitespace, dispatch); `PK.dispatch ch` its dispatch `match`;
`PK.arrayFirst`/`PK.arrayNext` are `read_array` and its separator loop, with
the `JsonValue::Array` wrapping of `expect_value!` applied at the loop
exits; likewise `PK.objectFirst`/`PK.objectNext` for `read_object`. -/
def pstep : Nat → PK → List Nat → Nat → Res JsonValue
  | 0, _, _, _ => .fuelOut
  | fuel + 1, .value, src, i =>
    match src[i]? with
    | none => .err .unexpectedEndOfJson
    | some ch =>
      (consumeWs fuel src (i + 1) ch).bind fun ch i => pstep fuel (.dispatch ch) src i
  | fuel + 1, .dispatch ch, src, i =>
    if ch = 91 then pstep fuel .arrayFirst src i
    else if ch = 123 then pstep fuel .objectFirst src i
    else if ch = 34 then (expect_string fuel src i i).bind fun s i => .ok (.string s) i
    else if ch = 48 then
      (read_number_with_fraction fuel src i (.fin 0 0)).bind fun n i => .ok (.number n) i
    else if isDigitB ch then
      (expect_number fuel src i (ch - 48) 0).bind fun n i => .ok (.number n) i
    else if ch = 45 then
      (match src[i]? with
       | none => (.err .unexpectedEndOfJson : Res F64)
       | some ch2 =>
         if ch2 = 48 then read_number_with_fraction fuel src (i + 1) (.fin 0 0)
         else if isDigitB ch2 then expect_number fuel src (i + 1) (ch2 - 48) 0
         else unexpected_character src (i + 1) ch2).bind
        fun n i => .ok (.number n.neg) i
    else if ch = 116 then (seqBytes src i [114, 117, 101]).bind fun _ i => .ok (.boolean true) i
    else if ch = 102 then
      (seqBytes src i [97, 108, 115, 101]).bind fun _ i => .ok (.boolean false) i
    else if ch = 110 then (seqBytes src i [117, 108, 108]).bind fun _ i => .ok .null i
    else unexpected_character src i ch
  | fuel + 1, .arrayFirst, src, i =>
    match src[i]? with
    | none => .err .unexpectedEndOfJson
    | some ch =>
      (consumeWs fuel src (i + 1) ch).bind fun ch i =>
        if ch = 93 then .ok (.array []) i
        else
          (pstep fuel (.dispatch ch) src i).bind fun first i =>
            pstep fuel (.arrayNext [first]) src i
  | fuel + 1, .arrayNext acc, src, i =>
    match src[i]? with
    | none => .err .unexpectedEndOfJson
    | some ch =>
      (consumeWs fuel src (i + 1) ch).bind fun ch i =>
        if ch = 93 then .ok (.array acc) i
        else if ch = 44 then
          (pstep fuel .value src i).bind fun v i => pstep fuel (.arrayNext (acc ++ [v])) src i
        else unexpected_character src i ch
  | fuel + 1, .objectFirst, src, i =>
    match src[i]? with
    | none => .err .unexpectedEndOfJson
    | some ch =>
      (consumeWs fuel src (i + 1) ch).bind fun ch i =>
        if ch = 125 then .ok (.object []) i
        else if ch = 34 then
          (expect_string fuel src i i).bind fun key i =>
            (expectByte fuel src i 58).bind fun _ i =>
              (pstep fuel .value src i).bind fun v i =>
                pstep fuel (.objectNext (btreeInsert [] key v)) src i
        else unexpected_character src i ch
  | fuel + 1, .objectNext obj, src, i =>
    match src[i]? with
    | none => .err .unexpectedEndOfJson
    | some ch =>
      (consumeWs fuel src (i + 1) ch).bind fun ch i =>
        if ch = 125 then .ok (.object obj) i
        else if ch = 44 then
          (expectByte fuel src i 34).bind fun _ i =>
            (expect_string fuel src i i).bind fun key i =>
              (expectByte fuel src i 58).bind fun _ i =>
                (pstep fuel .value src i).bind fun v i =>
                  pstep fuel (.objectNext (btreeInsert obj key v)) src i
        else unexpected_character src i ch

/-- `Parser::value` / `expect_value!` at the top level. -/
def pvalue (fuel : Nat) (src : List Nat) (i : Nat) : Res JsonValue :=
  pstep fuel .value src i


/-- `ensure_end`: after the value, only whitespace may remain. -/
def ensure_end : Nat → List Nat → Nat → Res Unit
  | 0, _, _ => .fuelOut
  | fuel + 1, src, i =>
    match src[i]? with
    | none => .ok () i
    | some ch =>
      if isWs ch then ensure_end fuel src (i + 1) else unexpected_character src (i + 1) ch

/-- Fuel budget: ample for one pass over the input. -/
def fuelFor (src : List Nat) : Nat := 8 * src.length + 64

/-- The entry point `parse`: one value, then `ensure_end`. -/
def parse (src : List Nat) : Res JsonValue :=
  (pvalue (fuelFor src) src 0).bind fun v i =>
    (ensure_end (fuelFor src) src i).bind fun _ j => .ok v j

/-- The 21-digit example `"123456789012345678901"` as bytes. -/
def bigDigits : List Nat :=
  [49, 50, 51, 52, 53, 54, 55, 56, 57, 48, 49, 50, 51, 52, 53, 54, 55, 56, 57, 48, 49]

/-! ## Theorems for the claims -/

/-- Claim C1 (code bug): at a failure position whose byte is a 2-byte UTF-8
lead (here `é` = `[0xC3, 0xA9]`), the parser panics instead of reporting the
decoded character: the source tests `byte & 0xE0 == 0xCE`, a mask no byte
can satisfy (it should be `0xC0`), so the buffer stays empty and
`chars().next().unwrap()` panics.  A 3-byte lead (here `€`) follows the
intended path and reports the decoded character. -/
theorem c1_two_byte_lead_panics :
    parse [195, 169] = Res.crashed ∧
    parse [226, 130, 172] = Res.err (.unexpectedCharacter 8364 0 1) :=
  ⟨rfl, rfl⟩

/-- Claim C2 counterexample: an unexpected character at the very first byte
is reported at line 0, not line 1 — the position is computed from the prefix
strictly before the failing byte, and Rust `lines()` of the empty prefix has
count 0. -/
theorem c2_first_byte_reports_line_zero :
    parse [120] = Res.err (.unexpectedCharacter 120 0 1) := rfl

/-- Claim C2 amended: positions come from the prefix strictly before the
failing byte via `lines()`: at the first byte (`"x"`) line 0 column 1; later
on the first line (`"[x"`) line 1 with 1-based column; immediately after a
newline (`"\nx"` and `"[1,\nx"`) the count of newline-terminated segments
of the strict prefix — the preceding line number — with a column one more
than the character count of the preceding line (so column 1 only when that
line is empty). -/
theorem c2_position_from_strict_prefix :
    parse [120] = Res.err (.unexpectedCharacter 120 0 1) ∧
    parse [91, 120] = Res.err (.unexpectedCharacter 120 1 2) ∧
    parse [10, 120] = Res.err (.unexpectedCharacter 120 1 1) ∧
    parse [91, 49, 44, 10, 120] = Res.err (.unexpectedCharacter 120 1 4) :=
  ⟨rfl, rfl, rfl, rfl⟩

/-- Claim C3 counterexample: the unpaired high surrogate `"\uD800"` with no
following `\u` escape fails with `UnexpectedCharacter` for the closing
quote (the `sequence!(self, b'\\', b'u')` mismatch), not with the encoding
error `FailedUtf8Parsing`. -/
theorem c3_unpaired_high_surrogate_not_encoding_error :
    parse [34, 92, 117, 68, 56, 48, 48, 34] = Res.err (.unexpectedCharacter 34 1 8) := rfl

/-- Claim C3 amended: `"😀"` decodes via the surrogate-pair
formula to U+1F600 as 4 UTF-8 bytes; a high surrogate followed by `\u` and
an out-of-range low value fails with `FailedUtf8Parsing`, as does a lone low
surrogate; but a high surrogate not followed by the two bytes `\u` fails
with `UnexpectedCharacter` at the mismatching byte, or with
`UnexpectedEndOfJson` at end of input. -/
theorem c3_surrogate_pairs :
    parse [34, 92, 117, 68, 56, 51, 68, 92, 117, 68, 69, 48, 48, 34] =
      Res.ok (.string [240, 159, 152, 128]) 14 ∧
    parse [34, 92, 117, 68, 56, 48, 48, 92, 117, 68, 56, 48, 48, 34] =
      Res.err .failedUtf8Parsing ∧
    parse [34, 92, 117, 68, 67, 48, 48, 34] = Res.err .failedUtf8Parsing ∧
    parse [34, 92, 117, 68, 56, 48, 48, 120, 34] = Res.err (.unexpectedCharacter 120 1 8) ∧
    parse [34, 92, 117, 68, 56, 48, 48] = Res.err .unexpectedEndOfJson :=
  ⟨rfl, rfl, rfl, rfl, rfl⟩

/-- Claim C4 counterexample: a decimal point not followed by any digit is
accepted — `"1."` parses to `1.0` (the fraction `read_num!` loop allows zero
iterations), contradicting the claimed one-or-more-digits grammar. -/
theorem c4_dot_without_digits_accepted :
    parse [49, 46] = Res.ok (.number (.fin 1 0)) 2 := rfl

/-- Claim C4 amended: the decimal point may be followed by zero digits
(`"1."` is `1.0`, `"1.e2"` is `100.0`), while an exponent marker does
require at least one digit after its optional sign (`"1e"` and `"1e+"` are
end-of-input errors, `"1ex"` an unexpected character); a lone `-` is
rejected, a leading zero cannot be followed by digits (`"01"` fails at the
`1`), and `"1e+5"` is `100000.0`. -/
theorem c4_number_grammar :
    parse [49, 46, 101, 50] = Res.ok (.number (.fin 25 2)) 4 ∧
    parse [49, 101] = Res.err .unexpectedEndOfJson ∧
    parse [49, 101, 43] = Res.err .unexpectedEndOfJson ∧
    parse [49, 101, 120] = Res.err (.unexpectedCharacter 120 1 3) ∧
    parse [45] = Res.err .unexpectedEndOfJson ∧
    parse [45, 120] = Res.err (.unexpectedCharacter 120 1 2) ∧
    parse [48, 49] = Res.err (.unexpectedCharacter 49 1 2) ∧
    parse [49, 101, 43, 53] = Res.ok (.number (.fin 3125 5)) 4 :=
  ⟨rfl, rfl, rfl, rfl, rfl, rfl, rfl, rfl⟩

/-- Claim C5 counterexample: the claimed input `"123456789012345678901"`
itself parses (via the 19-digit `u64` prefix and per-digit rounded `f64`
accumulation) to `7535204407491801 * 2^14 = 123456789012345667584`, which is
NOT the nearest representable double of the exact value: correct rounding
gives `3767602203745901 * 2^15 = 123456789012345683968`. -/
theorem c5_not_nearest_double :
    parse bigDigits = Res.ok (.number (.fin 7535204407491801 14)) 21 ∧
    froundF ⟨123456789012345678901, 1⟩ = .fin 3767602203745901 15 ∧
    (7535204407491801 : Int) * 2 ^ 14 ≠ 3767602203745901 * 2 ^ 15 :=
  ⟨rfl, rfl, by decide⟩

/-- Claim C8: end-of-input errors exactly where a token is still required —
`""`, `"{"` and `"tru"` give `UnexpectedEndOfJson`, while `"{,"` gives an
`UnexpectedCharacter` identifying the comma at line 1 column 2. -/
theorem c8_end_of_input_errors :
    parse [] = Res.err .unexpectedEndOfJson ∧
    parse [123] = Res.err .unexpectedEndOfJson ∧
    parse [116, 114, 117] = Res.err .unexpectedEndOfJson ∧
    parse [123, 44] = Res.err (.unexpectedCharacter 44 1 2) :=
  ⟨rfl, rfl, rfl, rfl⟩

/-- Claim C9: `"0"` parses to `+0.0`; `"-0"` parses to `-0.0` (the negation
of the final magnitude preserves the sign of zero); `"1.5e2"` parses to
exactly `150.0` (= `75 * 2^1`). -/
theorem c9_number_fidelity :
    parse [48] = Res.ok (.number (.fin 0 0)) 1 ∧
    parse [45, 48] = Res.ok (.number .negZero) 2 ∧
    parse [49, 46, 53, 101, 50] = Res.ok (.number (.fin 75 1)) 5 ∧
    (75 : Int) * 2 ^ 1 = 150 :=
  ⟨rfl, rfl, rfl, rfl⟩

/-- Claim C7 counterexample: a trailing non-whitespace byte after a complete
value does not always produce a syntax error — a trailing 2-byte UTF-8
character (`"1 é"`) makes `ensure_end` call the character decoder, which
panics (see C1), instead of returning an error. -/
theorem c7_trailing_two_byte_char_panics :
    parse [49, 32, 195, 169] = Res.crashed := rfl

/-- Claim C6: duplicate object keys are not an error and the last write
wins: the `BTreeMap` insert replaces the value of an existing key (first
conjunct, for the insert operation `read_object` uses), and
`{"a":1,"a":2}` parses to the single-entry object `a ↦ 2` (= `fin 1 1`). -/
theorem c6_duplicate_keys_last_write_wins :
    (∀ (m : List (List Nat × JsonValue)) (k : List Nat) (v : JsonValue),
        lookupKey (btreeInsert m k v) k = some v) ∧
    parse [123, 34, 97, 34, 58, 49, 44, 34, 97, 34, 58, 50, 125] =
      Res.ok (.object [([97], .number (.fin 1 1))]) 13 := by
  constructor
  · intro m k v
    induction m with
    | nil => simp [btreeInsert, lookupKey]
    | cons hd tl ih =>
      obtain ⟨k', v'⟩ := hd
      by_cases h1 : lexLt k k' = true
      · simp [btreeInsert, h1, lookupKey]
      · by_cases h2 : k = k'
        · subst h2
          simp [btreeInsert, h1, lookupKey]
        · simp [btreeInsert, h1, h2, lookupKey, ih]
  · rfl

/-- The fast scan of `expect_string!` over bytes that are neither `"` nor
`\` runs to the closing quote and returns the raw slice. -/
theorem expect_string_raw_scan (content : List Nat) :
    ∀ (fuel i : Nat) (src post : List Nat) (start : Nat),
      content.length < fuel →
      (∀ b ∈ content, b ≠ 34 ∧ b ≠ 92) →
      src.drop i = content ++ 34 :: post →
      expect_string fuel src start i =
        .ok ((src.drop start).take (i + content.length - start)) (i + content.length + 1) := by
  induction content with
  | nil =>
    intro fuel i src post start hfuel _ hdrop
    match fuel, hfuel with
    | fuel + 1, _ =>
      have h34 : src[i]? = some 34 := by
        have h0 := List.getElem?_drop src i 0
        rw [hdrop] at h0
        simpa using h0.symm
      simp [expect_string, h34]
  | cons b rest ih =>
    intro fuel i src post start hfuel hnb hdrop
    match fuel, hfuel with
    | fuel + 1, hfuel =>
      have hb : src[i]? = some b := by
        have h0 := List.getElem?_drop src i 0
        rw [hdrop] at h0
        simpa using h0.symm
      have hbq := hnb b (List.mem_cons_self b rest)
      have hdrop' : src.drop (i + 1) = rest ++ 34 :: post := by
        have h1 : (src.drop i).drop 1 = src.drop (i + 1) := by
          rw [List.drop_drop]
        rw [hdrop] at h1
        simpa using h1.symm
      have hrec := ih fuel (i + 1) src post start (by simpa using Nat.lt_of_succ_lt_succ hfuel)
        (fun x hx => hnb x (List.mem_cons_of_mem _ hx)) hdrop'
      have harith1 : i + 1 + rest.length - start = i + (b :: rest).length - start := by
        simp [List.length_cons]; omega
      have harith2 : i + 1 + rest.length + 1 = i + (b :: rest).length + 1 := by
        simp [List.length_cons]; omega
      rw [harith1, harith2] at hrec
      simp [expect_string, hb, hbq.1, hbq.2, hrec]

/-- One unfolding of `pstep` in value mode. -/
theorem pstep_value_succ (fuel : Nat) (src : List Nat) (i : Nat) :
    pstep (fuel + 1) .value src i =
      match src[i]? with
      | none => .err .unexpectedEndOfJson
      | some ch =>
        (consumeWs fuel src (i + 1) ch).bind fun ch i => pstep fuel (.dispatch ch) src i := rfl

/-- Dispatch on an opening quote enters the string scanner. -/
theorem pstep_dispatch_quote (fuel : Nat) (src : List Nat) (i : Nat) :
    pstep (fuel + 1) (.dispatch 34) src i =
      (expect_string fuel src i i).bind fun s i => .ok (.string s) i := rfl

/-- `ensure_end` succeeds immediately at end of input. -/
theorem ensure_end_at_end (fuel : Nat) (src : List Nat) (i : Nat) (h : src.length ≤ i) :
    ensure_end (fuel + 1) src i = .ok () i := by
  have hnone : src[i]? = none := List.getElem?_eq_none_iff.mpr h
  simp [ensure_end, hnone]

/-- Claim C10: inside a string literal, every byte other than `"` and `\` —
including raw control bytes such as newline and tab — is accepted and
preserved verbatim in the parsed string value. -/
theorem c10_raw_bytes_preserved (content : List Nat)
    (hnb : ∀ b ∈ content, b ≠ 34 ∧ b ≠ 92) :
    parse ([34] ++ content ++ [34]) = Res.ok (.string content) (content.length + 2) := by
  have hsrc : ([34] ++ content ++ [34] : List Nat).length = content.length + 2 := by
    simp
  have hdrop1 : ([34] ++ content ++ [34] : List Nat).drop 1 = content ++ 34 :: [] := by
    simp
  have hscan := expect_string_raw_scan content (8 * content.length + 78)
    1 ([34] ++ content ++ [34]) [] 1 (by omega) hnb hdrop1
  have hslice : (([34] ++ content ++ [34] : List Nat).drop 1).take (1 + content.length - 1)
      = content := by
    rw [hdrop1]
    have h : 1 + content.length - 1 = content.length := by omega
    rw [h]
    exact List.take_left content (34 :: [])
  rw [hslice] at hscan
  have hF : fuelFor ([34] ++ content ++ [34]) = (8 * content.length + 79) + 1 := by
    unfold fuelFor
    rw [hsrc]
    omega
  have hpv : pvalue (fuelFor ([34] ++ content ++ [34])) ([34] ++ content ++ [34]) 0
      = .ok (.string content) (content.length + 2) := by
    unfold pvalue
    rw [hF, pstep_value_succ]
    have h0 : ([34] ++ content ++ [34] : List Nat)[0]? = some 34 := by simp
    rw [h0]
    show pstep (8 * content.length + 79) (.dispatch 34) ([34] ++ content ++ [34]) 1
        = .ok (.string content) (content.length + 2)
    have h79 : 8 * content.length + 79 = (8 * content.length + 78) + 1 := by omega
    rw [h79, pstep_dispatch_quote]
    show (expect_string (8 * content.length + 78) ([34] ++ content ++ [34]) 1 1).bind
        (fun s i => Res.ok (JsonValue.string s) i) = .ok (.string content) (content.length + 2)
    rw [hscan]
    show Res.ok (JsonValue.string content) (1 + content.length + 1)
        = .ok (.string content) (content.length + 2)
    congr 1
    omega
  unfold parse
  rw [hpv]
  show (ensure_end (fuelFor ([34] ++ content ++ [34])) ([34] ++ content ++ [34])
      (content.length + 2)).bind (fun _ j => Res.ok (JsonValue.string content) j)
      = Res.ok (.string content) (content.length + 2)
  rw [hF, ensure_end_at_end _ _ _ (by rw [hsrc])]
  rfl

/-- Claim C10 witness: the string body `[10, 9]` (raw newline and tab). -/
theorem c10_raw_bytes_preserved_witness :
    parse [34, 10, 9, 34] = Res.ok (.string [10, 9]) 4 :=
  c10_raw_bytes_preserved [10, 9] (by decide)

/-- A digit byte is not whitespace. -/
theorem isWs_false_of_digit {b : Nat} (h : isDigitB b = true) : isWs b = false := by
  simp [isDigitB] at h
  simp [isWs]
  omega

/-- `read_number_with_fraction` at end of input returns its argument. -/
theorem read_number_with_fraction_at_end (fuel : Nat) (src : List Nat) (i : Nat) (num : F64)
    (h : src.length ≤ i) :
    read_number_with_fraction fuel src i num = .ok num i := by
  have hnone : src[i]? = none := List.getElem?_eq_none_iff.mpr h
  unfold read_number_with_fraction
  rw [hnone]

/-- The `read_big_number` digit loop consumes an all-digit tail entirely. -/
theorem bigNumLoop_all_digits :
    ∀ (fuel : Nat) (src : List Nat) (i : Nat) (num : F64),
      src.length - i < fuel → i ≤ src.length →
      (∀ b ∈ src.drop i, isDigitB b = true) →
      ∃ f, bigNumLoop fuel src i num = .ok f src.length := by
  intro fuel
  induction fuel with
  | zero => intro src i num h _ _; omega
  | succ fuel ih =>
    intro src i num hfuel hi hdig
    by_cases hlen : i < src.length
    · have hb : src[i]? = some src[i] := (List.getElem?_eq_some_getElem_iff src i hlen).mpr trivial
      have hmem : src[i] ∈ src.drop i := by
        rw [List.mem_iff_getElem?]
        exact ⟨0, by rw [List.getElem?_drop, Nat.add_zero]; exact hb⟩
      have hdigb := hdig _ hmem
      have hdig' : ∀ b ∈ src.drop (i + 1), isDigitB b = true := by
        intro b hbm
        apply hdig
        have hdd : (src.drop i).drop 1 = src.drop (i + 1) := List.drop_drop 1 i src
        rw [← hdd] at hbm
        exact List.mem_of_mem_drop hbm
      obtain ⟨f, hf⟩ := ih src (i + 1)
        (F64.add (F64.mul num f64Ten) (froundF ⟨(src[i] - 48 : Nat), 1⟩))
        (by omega) (by omega) hdig'
      refine ⟨f, ?_⟩
      simp only [bigNumLoop, hb, hdigb, if_true]
      exact hf
    · have hieq : i = src.length := by omega
      have hnone : src[i]? = none := List.getElem?_eq_none_iff.mpr (by omega)
      refine ⟨num, ?_⟩
      simp only [bigNumLoop, hnone]
      rw [hieq]

/-- `expect_number` on an all-digit tail: either it reaches end of input
within the 18-iteration cap, or it switches to `read_big_number`; in both
cases it succeeds and consumes everything. -/
theorem expect_number_all_digits :
    ∀ (fuel : Nat) (src : List Nat) (i : Nat) (num digits : Nat),
      src.length - i + 20 ≤ fuel → i ≤ src.length → digits ≤ 18 →
      (∀ b ∈ src.drop i, isDigitB b = true) →
      ∃ f, expect_number fuel src i num digits = .ok f src.length := by
  intro fuel
  induction fuel with
  | zero => intro src i num digits h _ _ _; omega
  | succ fuel ih =>
    intro src i num digits hfuel hi hdigits hdig
    by_cases hd : digits = 18
    · subst hd
      obtain ⟨f, hbig⟩ := bigNumLoop_all_digits fuel src i (u64ToF64 num) (by omega) hi hdig
      refine ⟨f, ?_⟩
      have hcall : expect_number (fuel + 1) src i num 18
          = read_big_number fuel src i (u64ToF64 num) := by
        simp [expect_number]
      rw [hcall]
      unfold read_big_number
      rw [hbig]
      show read_number_with_fraction fuel src src.length f = .ok f src.length
      exact read_number_with_fraction_at_end fuel src src.length f (le_refl _)
    · by_cases hlen : i < src.length
      · have hb : src[i]? = some src[i] := (List.getElem?_eq_some_getElem_iff src i hlen).mpr trivial
        have hmem : src[i] ∈ src.drop i := by
          rw [List.mem_iff_getElem?]
          exact ⟨0, by rw [List.getElem?_drop, Nat.add_zero]; exact hb⟩
        have hdigb := hdig _ hmem
        have hdig' : ∀ b ∈ src.drop (i + 1), isDigitB b = true := by
          intro b hbm
          apply hdig
          have hdd : (src.drop i).drop 1 = src.drop (i + 1) := List.drop_drop 1 i src
          rw [← hdd] at hbm
          exact List.mem_of_mem_drop hbm
        obtain ⟨f, hf⟩ := ih src (i + 1) (u64next num (src[i] - 48)) (digits + 1)
          (by omega) (by omega) (by omega) hdig'
        refine ⟨f, ?_⟩
        simp only [expect_number, hb, hdigb, if_true]
        rw [if_neg hd]
        exact hf
      · have hieq : i = src.length := by omega
        have hnone : src[i]? = none := List.getElem?_eq_none_iff.mpr (by omega)
        refine ⟨u64ToF64 num, ?_⟩
        simp only [expect_number, hnone]
        rw [if_neg hd, hieq]

/-- Dispatch on a nonzero digit byte enters `expect_number!`. -/
theorem pstep_dispatch_digit (fuel : Nat) (src : List Nat) (i ch : Nat)
    (h1 : 49 ≤ ch) (h2 : ch ≤ 57) :
    pstep (fuel + 1) (.dispatch ch) src i =
      (expect_number fuel src i (ch - 48) 0).bind fun n i => .ok (.number n) i := by
  have hdig : isDigitB ch = true := by simp [isDigitB]; omega
  simp only [pstep]
  rw [if_neg (by omega), if_neg (by omega), if_neg (by omega), if_neg (by omega), if_pos hdig]

/-- Claim C5 (amended): the `u64` accumulator update is exact and below
`2^64` whenever the accumulator still has at most 18 digits (and it is
updated at most once more, for the 19th digit, before the switch to
`read_big_number`); every digit string with more than 18 digits parses
without overflow, error or panic; the example `"123456789012345678901"`
parses to `7535204407491801 * 2^14 = 123456789012345667584`. -/
theorem c5_u64_cap_and_big_digit_strings :
    (∀ num d : Nat, num < 10 ^ 18 → d ≤ 9 →
        u64next num d = 10 * num + d ∧ 10 * num + d < 2 ^ 64) ∧
    (∀ (h : Nat) (rest : List Nat), 49 ≤ h → h ≤ 57 → 17 < rest.length →
        (∀ b ∈ rest, isDigitB b = true) →
        ∃ f, parse (h :: rest) = Res.ok (.number f) (rest.length + 1)) ∧
    parse bigDigits = Res.ok (.number (.fin 7535204407491801 14)) 21 := by
  refine ⟨?_, ?_, rfl⟩
  · intro num d hnum hd
    have h10 : (10 : Nat) ^ 18 = 1000000000000000000 := by norm_num
    have h64 : (2 : Nat) ^ 64 = 18446744073709551616 := by norm_num
    rw [h10] at hnum
    rw [h64]
    unfold u64next wAdd wShl
    rw [Nat.shiftLeft_eq, Nat.shiftLeft_eq]
    norm_num
    omega
  · intro h rest h49 h57 hrl hdig
    have hlen : (h :: rest).length = rest.length + 1 := by simp
    have hF : fuelFor (h :: rest) = (8 * (h :: rest).length + 63) + 1 := by
      unfold fuelFor
      omega
    have hws : isWs h = false := by simp [isWs]; omega
    obtain ⟨f, hen⟩ := expect_number_all_digits (8 * (h :: rest).length + 62) (h :: rest) 1
      (h - 48) 0 (by omega) (by simp) (by omega)
      (by intro b hb; rw [show List.drop 1 (h :: rest) = rest from rfl] at hb; exact hdig b hb)
    refine ⟨f, ?_⟩
    have hpv : pvalue (fuelFor (h :: rest)) (h :: rest) 0 = .ok (.number f) (h :: rest).length := by
      unfold pvalue
      rw [hF, pstep_value_succ]
      have h0 : (h :: rest)[0]? = some h := by simp
      rw [h0]
      show (consumeWs (8 * (h :: rest).length + 63) (h :: rest) 1 h).bind
        (fun ch i => pstep (8 * (h :: rest).length + 63) (.dispatch ch) (h :: rest) i)
        = .ok (.number f) (h :: rest).length
      unfold consumeWs
      rw [hws]
      show pstep (8 * (h :: rest).length + 63) (.dispatch h) (h :: rest) 1
        = .ok (.number f) (h :: rest).length
      have h63 : 8 * (h :: rest).length + 63 = (8 * (h :: rest).length + 62) + 1 := by omega
      rw [h63, pstep_dispatch_digit _ _ _ _ h49 h57]
      rw [hen]
      rfl
    unfold parse
    rw [hpv]
    show (ensure_end (fuelFor (h :: rest)) (h :: rest) (h :: rest).length).bind
      (fun _ j => Res.ok (JsonValue.number f) j) = Res.ok (.number f) (rest.length + 1)
    rw [hF, ensure_end_at_end _ _ _ (le_refl _)]
    show Res.ok (JsonValue.number f) (h :: rest).length = Res.ok (.number f) (rest.length + 1)
    rw [hlen]

/-- Claim C5 witness: the update at `num = 5, d = 3`, and the 21-digit
example string. -/
theorem c5_u64_cap_and_big_digit_strings_witness :
    (u64next 5 3 = 53 ∧ 53 < 2 ^ 64) ∧
    ∃ f, parse (49 :: [50, 51, 52, 53, 54, 55, 56, 57, 48, 49,
                       50, 51, 52, 53, 54, 55, 56, 57, 48, 49]) =
      Res.ok (.number f) 21 := by
  constructor
  · have h := c5_u64_cap_and_big_digit_strings.1 5 3 (by norm_num) (by norm_num)
    exact ⟨h.1.trans (by norm_num), by norm_num⟩
  · have h := c5_u64_cap_and_big_digit_strings.2.1 49
      [50, 51, 52, 53, 54, 55, 56, 57, 48, 49, 50, 51, 52, 53, 54, 55, 56, 57, 48, 49]
      (by norm_num) (by norm_num) (by norm_num) (by decide)
    simpa using h

/-! ## Whitespace-extension lemmas (for claim C7)

For every scanner: a successful run on `src` is unchanged when `src` is
extended with whitespace-only bytes `w`, fuel does not decrease, and the
final cursor stays within `src`. -/

/-- Inversion for successful `Res.bind`. -/
theorem bind_eq_ok {r : Res α} {f : α → Nat → Res β} {v : β} {j : Nat}
    (h : r.bind f = .ok v j) : ∃ a i, r = .ok a i ∧ f a i = .ok v j := by
  cases r with
  | ok a i => exact ⟨a, i, rfl, h⟩
  | err e => exact absurd h (by simp [Res.bind])
  | crashed => exact absurd h (by simp [Res.bind])
  | fuelOut => exact absurd h (by simp [Res.bind])

/-- A successful read is within bounds. -/
theorem getElem?_some_lt {l : List Nat} {i b : Nat} (h : l[i]? = some b) : i < l.length := by
  by_contra hn
  rw [List.getElem?_eq_none_iff.mpr (by omega)] at h
  exact absurd h (by simp)

/-- A read within `src` is unchanged on `src ++ w`. -/
theorem read_app {src : List Nat} (w : List Nat) {i b : Nat} (h : src[i]? = some b) :
    (src ++ w)[i]? = some b := by
  rw [List.getElem?_append_left (getElem?_some_lt h)]
  exact h

/-- Reading `src ++ b0 :: w'` right at the end of `src`. -/
theorem read_end_cons (src : List Nat) (b0 : Nat) (w' : List Nat) {i : Nat}
    (hi : i = src.length) : (src ++ b0 :: w')[i]? = some b0 := by
  subst hi
  rw [List.getElem?_append_right (le_refl _)]
  simp

/-- A whitespace byte is not a digit, dot, exponent marker, quote or
backslash. -/
theorem ws_facts {b : Nat} (h : isWs b = true) :
    isDigitB b = false ∧ b ≠ 46 ∧ b ≠ 101 ∧ b ≠ 69 ∧ b ≠ 34 ∧ b ≠ 92 := by
  simp [isWs] at h
  simp [isDigitB]
  omega

/-- `ucFinish` never succeeds. -/
theorem ucFinish_ne_ok (line col : Nat) (buf : List Nat) (v : α) (j : Nat) :
    ucFinish line col buf ≠ Res.ok v j := by
  unfold ucFinish
  by_cases hv : utf8Valid4 buf = true
  · rw [if_pos hv]
    rcases hu : utf8First buf with _ | ⟨cp, rest⟩ <;> simp [hu]
  · rw [if_neg hv]
    simp

/-- `unexpected_character` never succeeds. -/
theorem unexpected_character_ne_ok (src : List Nat) (i b : Nat) (v : α) (j : Nat) :
    unexpected_character src i b ≠ Res.ok v j := by
  intro h
  unfold unexpected_character at h
  repeat' split at h
  all_goals
    first
      | exact absurd h (by simp)
      | exact ucFinish_ne_ok _ _ _ _ _ h

/-- Whitespace-extension for the `consume_whitespace!` inner loop. -/
theorem wsLoop_ext (src w : List Nat) :
    ∀ fuel fuel' i b j, fuel ≤ fuel' →
      wsLoop fuel src i = .ok b j →
      wsLoop fuel' (src ++ w) i = .ok b j ∧ j ≤ src.length := by
  intro fuel
  induction fuel with
  | zero => intro fuel' i b j _ hok; exact absurd hok (by simp [wsLoop])
  | succ fuel ih =>
    intro fuel' i b j hf hok
    obtain ⟨f', rfl⟩ : ∃ f', fuel' = f' + 1 := ⟨fuel' - 1, by omega⟩
    simp only [wsLoop] at hok ⊢
    cases hsrc : src[i]? with
    | none =>
      rw [hsrc] at hok
      exact absurd hok (by simp)
    | some b0 =>
      simp only [hsrc] at hok
      simp only [read_app w hsrc]
      have hlt := getElem?_some_lt hsrc
      by_cases hwsb : isWs b0 = true
      · rw [if_pos hwsb] at hok ⊢
        exact ih f' (i + 1) b j (by omega) hok
      · rw [if_neg hwsb] at hok ⊢
        cases hok
        exact ⟨rfl, by omega⟩

/-- Whitespace-extension for `consume_whitespace!`. -/
theorem consumeWs_ext (src w : List Nat)
    {fuel fuel' i ch b j : Nat} (hf : fuel ≤ fuel') (hi : i ≤ src.length)
    (hok : consumeWs fuel src i ch = .ok b j) :
    consumeWs fuel' (src ++ w) i ch = .ok b j ∧ j ≤ src.length := by
  unfold consumeWs at hok ⊢
  by_cases hws : isWs ch = true
  · rw [if_pos hws] at hok ⊢
    exact wsLoop_ext src w fuel fuel' i b j hf hok
  · rw [if_neg hws] at hok ⊢
    cases hok
    exact ⟨rfl, hi⟩

/-- Whitespace-extension for `sequence!`. -/
theorem seqBytes_ext (src w : List Nat) :
    ∀ (bs : List Nat) (i j : Nat), i ≤ src.length →
      seqBytes src i bs = .ok () j →
      seqBytes (src ++ w) i bs = .ok () j ∧ j ≤ src.length := by
  intro bs
  induction bs with
  | nil =>
    intro i j hi hok
    cases hok
    exact ⟨rfl, hi⟩
  | cons b rest ih =>
    intro i j hi hok
    simp only [seqBytes] at hok ⊢
    cases hsrc : src[i]? with
    | none =>
      rw [hsrc] at hok
      exact absurd hok (by simp)
    | some ch =>
      simp only [hsrc] at hok
      simp only [read_app w hsrc]
      have hlt := getElem?_some_lt hsrc
      by_cases hc : ch = b
      · rw [if_pos hc] at hok ⊢
        exact ih (i + 1) j (by omega) hok
      · rw [if_neg hc] at hok
        exact absurd hok (unexpected_character_ne_ok _ _ _ _ _)

/-- Whitespace-extension for `read_hexdec_digit`. -/
theorem read_hexdec_digit_ext (src w : List Nat) {i d j : Nat}
    (hok : read_hexdec_digit src i = .ok d j) :
    read_hexdec_digit (src ++ w) i = .ok d j ∧ j ≤ src.length := by
  unfold read_hexdec_digit at hok ⊢
  cases hsrc : src[i]? with
  | none =>
    rw [hsrc] at hok
    exact absurd hok (by simp)
  | some ch =>
    simp only [hsrc] at hok
    simp only [read_app w hsrc]
    have hlt := getElem?_some_lt hsrc
    by_cases h1 : 48 ≤ ch ∧ ch ≤ 57
    · rw [if_pos h1] at hok ⊢
      cases hok
      exact ⟨rfl, by omega⟩
    · rw [if_neg h1] at hok ⊢
      by_cases h2 : 97 ≤ ch ∧ ch ≤ 102
      · rw [if_pos h2] at hok ⊢
        cases hok
        exact ⟨rfl, by omega⟩
      · rw [if_neg h2] at hok ⊢
        by_cases h3 : 65 ≤ ch ∧ ch ≤ 70
        · rw [if_pos h3] at hok ⊢
          cases hok
          exact ⟨rfl, by omega⟩
        · rw [if_neg h3] at hok
          exact absurd hok (unexpected_character_ne_ok _ _ _ _ _)

/-- Whitespace-extension for `read_hexdec_codepoint`. -/
theorem read_hexdec_codepoint_ext (src w : List Nat) {i cp j : Nat}
    (hok : read_hexdec_codepoint src i = .ok cp j) :
    read_hexdec_codepoint (src ++ w) i = .ok cp j ∧ j ≤ src.length := by
  unfold read_hexdec_codepoint at hok ⊢
  obtain ⟨d1, i1, h1, hok⟩ := bind_eq_ok hok
  obtain ⟨d2, i2, h2, hok⟩ := bind_eq_ok hok
  obtain ⟨d3, i3, h3, hok⟩ := bind_eq_ok hok
  obtain ⟨d4, i4, h4, hok⟩ := bind_eq_ok hok
  cases hok
  have e1 := read_hexdec_digit_ext src w h1
  have e2 := read_hexdec_digit_ext src w h2
  have e3 := read_hexdec_digit_ext src w h3
  have e4 := read_hexdec_digit_ext src w h4
  rw [e1.1]
  simp only [Res.bind]
  rw [e2.1]
  simp only [Res.bind]
  rw [e3.1]
  simp only [Res.bind]
  rw [e4.1]
  simp only [Res.bind]
  exact ⟨trivial, e4.2⟩

/-- `utf8Encode` leaves the cursor unchanged. -/
theorem utf8Encode_ok_idx {cp i : Nat} {d : List Nat} {j : Nat}
    (h : utf8Encode cp i = .ok d j) : j = i := by
  unfold utf8Encode at h
  repeat' split at h
  all_goals first | (cases h; rfl) | exact absurd h (by simp)

/-- Whitespace-extension for `read_codepoint`. -/
theorem read_codepoint_ext (src w : List Nat) {i : Nat} {d : List Nat} {j : Nat}
    (hok : read_codepoint src i = .ok d j) :
    read_codepoint (src ++ w) i = .ok d j ∧ j ≤ src.length := by
  unfold read_codepoint at hok ⊢
  obtain ⟨cp, i1, h1, hok⟩ := bind_eq_ok hok
  have e1 := read_hexdec_codepoint_ext src w h1
  rw [e1.1]
  simp only [Res.bind]
  by_cases hc1 : cp ≤ 0xD7FF
  · rw [if_pos hc1] at hok ⊢
    exact ⟨hok, by rw [utf8Encode_ok_idx hok]; exact e1.2⟩
  · rw [if_neg hc1] at hok ⊢
    by_cases hc2 : cp ≤ 0xDBFF
    · rw [if_pos hc2] at hok ⊢
      cases hsrc : src[i1]? with
      | none =>
        rw [hsrc] at hok
        exact absurd hok (by simp)
      | some c1 =>
        simp only [hsrc] at hok
        simp only [read_app w hsrc]
        by_cases hbs : c1 ≠ 92
        · rw [if_pos hbs] at hok
          exact absurd hok (unexpected_character_ne_ok _ _ _ _ _)
        · rw [if_neg hbs] at hok ⊢
          cases hsrc2 : src[i1 + 1]? with
          | none =>
            rw [hsrc2] at hok
            exact absurd hok (by simp)
          | some c2 =>
            simp only [hsrc2] at hok
            simp only [read_app w hsrc2]
            by_cases hu : c2 ≠ 117
            · rw [if_pos hu] at hok
              exact absurd hok (unexpected_character_ne_ok _ _ _ _ _)
            · rw [if_neg hu] at hok ⊢
              obtain ⟨lo, i2, h2, hok⟩ := bind_eq_ok hok
              have e2 := read_hexdec_codepoint_ext src w h2
              rw [e2.1]
              simp only [Res.bind]
              by_cases hlo : 0xDC00 ≤ lo ∧ lo ≤ 0xDFFF
              · rw [if_pos hlo] at hok ⊢
                exact ⟨hok, by rw [utf8Encode_ok_idx hok]; exact e2.2⟩
              · rw [if_neg hlo] at hok
                exact absurd hok (by simp)
    · rw [if_neg hc2] at hok ⊢
      by_cases hc3 : 0xE000 ≤ cp ∧ cp ≤ 0xFFFF
      · rw [if_pos hc3] at hok ⊢
        exact ⟨hok, by rw [utf8Encode_ok_idx hok]; exact e1.2⟩
      · rw [if_neg hc3] at hok
        exact absurd hok (by simp)

/-- Whitespace-extension for the `read_complex_string` loop. -/
theorem complexLoop_ext (src w : List Nat) :
    ∀ (fuel fuel' i ch : Nat) (buf v : List Nat) (j : Nat), fuel ≤ fuel' → i ≤ src.length →
      complexLoop fuel src i ch buf = .ok v j →
      complexLoop fuel' (src ++ w) i ch buf = .ok v j ∧ j ≤ src.length := by
  intro fuel
  induction fuel with
  | zero => intro fuel' i ch buf v j _ _ hok; exact absurd hok (by simp [complexLoop])
  | succ fuel ih =>
    intro fuel' i ch buf v j hf hi hok
    obtain ⟨f', rfl⟩ : ∃ f', fuel' = f' + 1 := ⟨fuel' - 1, by omega⟩
    simp only [complexLoop] at hok ⊢
    by_cases h34 : ch = 34
    · rw [if_pos h34] at hok ⊢
      cases hok
      exact ⟨rfl, hi⟩
    · rw [if_neg h34] at hok ⊢
      by_cases h92 : ch = 92
      · rw [if_pos h92] at hok ⊢
        cases hsrc : src[i]? with
        | none =>
          rw [hsrc] at hok
          exact absurd hok (by simp)
        | some esc =>
          simp only [hsrc] at hok
          simp only [read_app w hsrc]
          by_cases hu : esc = 117
          · rw [if_pos hu] at hok ⊢
            obtain ⟨delta, i2, h2, hok⟩ := bind_eq_ok hok
            have e2 := read_codepoint_ext src w h2
            rw [e2.1]
            simp only [Res.bind]
            cases hsrc2 : src[i2]? with
            | none =>
              rw [hsrc2] at hok
              exact absurd hok (by simp)
            | some ch2 =>
              simp only [hsrc2] at hok
              simp only [read_app w hsrc2]
              exact ih f' (i2 + 1) ch2 (buf ++ delta) v j (by omega)
                (by have := getElem?_some_lt hsrc2; omega) hok
          · rw [if_neg hu] at hok ⊢
            cases hm : escMap esc with
            | some b =>
              simp only [hm] at hok ⊢
              cases hsrc2 : src[i + 1]? with
              | none =>
                rw [hsrc2] at hok
                exact absurd hok (by simp)
              | some ch2 =>
                simp only [hsrc2] at hok
                simp only [read_app w hsrc2]
                exact ih f' (i + 2) ch2 (buf ++ [b]) v j (by omega)
                  (by have := getElem?_some_lt hsrc2; omega) hok
            | none =>
              simp only [hm] at hok
              exact absurd hok (unexpected_character_ne_ok _ _ _ _ _)
      · rw [if_neg h92] at hok ⊢
        cases hsrc : src[i]? with
        | none =>
          rw [hsrc] at hok
          exact absurd hok (by simp)
        | some ch2 =>
          simp only [hsrc] at hok
          simp only [read_app w hsrc]
          exact ih f' (i + 1) ch2 (buf ++ [ch]) v j (by omega)
            (by have := getElem?_some_lt hsrc; omega) hok

/-- Slices within `src` are unchanged on `src ++ w`. -/
theorem slice_app (src w : List Nat) {start n : Nat} (hstart : start ≤ src.length)
    (hn : n ≤ src.length - start) :
    ((src ++ w).drop start).take n = (src.drop start).take n := by
  rw [List.drop_append_of_le_length hstart]
  exact List.take_append_of_le_length (by simp; omega)

/-- Whitespace-extension for `expect_string!`. -/
theorem expect_string_ext (src w : List Nat) :
    ∀ (fuel fuel' start i : Nat) (s : List Nat) (j : Nat),
      fuel ≤ fuel' → i ≤ src.length → start ≤ src.length →
      expect_string fuel src start i = .ok s j →
      expect_string fuel' (src ++ w) start i = .ok s j ∧ j ≤ src.length := by
  intro fuel
  induction fuel with
  | zero => intro fuel' start i s j _ _ _ hok; exact absurd hok (by simp [expect_string])
  | succ fuel ih =>
    intro fuel' start i s j hf hi hstart hok
    obtain ⟨f', rfl⟩ : ∃ f', fuel' = f' + 1 := ⟨fuel' - 1, by omega⟩
    simp only [expect_string] at hok ⊢
    cases hsrc : src[i]? with
    | none =>
      rw [hsrc] at hok
      exact absurd hok (by simp)
    | some ch =>
      simp only [hsrc] at hok
      simp only [read_app w hsrc]
      have hlt := getElem?_some_lt hsrc
      by_cases h34 : ch = 34
      · rw [if_pos h34] at hok ⊢
        cases hok
        refine ⟨?_, by omega⟩
        rw [slice_app src w hstart (by omega)]
      · rw [if_neg h34] at hok ⊢
        by_cases h92 : ch = 92
        · rw [if_pos h92] at hok ⊢
          have hc := complexLoop_ext src w fuel f' (i + 1) 92
            ((src.drop start).take (i - start)) s j (by omega) (by omega) hok
          refine ⟨?_, hc.2⟩
          rw [slice_app src w hstart (by omega)]
          exact hc.1
        · rw [if_neg h92] at hok ⊢
          exact ih f' start (i + 1) s j (by omega) (by omega) hstart hok

/-- Whitespace-extension for the `read_big_number` digit loop; an appended
whitespace byte terminates the loop at the same place end-of-input did. -/
theorem bigNumLoop_ext (src w : List Nat) (hw : ∀ x ∈ w, isWs x = true) :
    ∀ (fuel fuel' i : Nat) (num v : F64) (j : Nat), fuel ≤ fuel' → i ≤ src.length →
      bigNumLoop fuel src i num = .ok v j →
      bigNumLoop fuel' (src ++ w) i num = .ok v j ∧ j ≤ src.length := by
  intro fuel
  induction fuel with
  | zero => intro fuel' i num v j _ _ hok; exact absurd hok (by simp [bigNumLoop])
  | succ fuel ih =>
    intro fuel' i num v j hf hi hok
    obtain ⟨f', rfl⟩ : ∃ f', fuel' = f' + 1 := ⟨fuel' - 1, by omega⟩
    simp only [bigNumLoop] at hok ⊢
    cases hsrc : src[i]? with
    | none =>
      rw [hsrc] at hok
      cases hok
      have hieq : i = src.length := by
        have := List.getElem?_eq_none_iff.mp hsrc
        omega
      refine ⟨?_, hi⟩
      cases w with
      | nil => simp only [List.append_nil, hsrc]
      | cons b0 w' =>
        have hb0 := read_end_cons src b0 w' hieq
        have hwf := ws_facts (hw b0 (by simp))
        simp [hb0, hwf.1]
    | some ch =>
      simp only [hsrc] at hok
      simp only [read_app w hsrc]
      by_cases hd : isDigitB ch = true
      · rw [if_pos hd] at hok ⊢
        exact ih f' (i + 1) _ v j (by omega) (by have := getElem?_some_lt hsrc; omega) hok
      · rw [if_neg hd] at hok ⊢
        cases hok
        exact ⟨rfl, hi⟩

/-- Whitespace-extension for the fraction digit loop. -/
theorem fracLoop_ext (src w : List Nat) (hw : ∀ x ∈ w, isWs x = true) :
    ∀ (fuel fuel' i : Nat) (num precision v : F64) (j : Nat), fuel ≤ fuel' → i ≤ src.length →
      fracLoop fuel src i num precision = .ok v j →
      fracLoop fuel' (src ++ w) i num precision = .ok v j ∧ j ≤ src.length := by
  intro fuel
  induction fuel with
  | zero => intro fuel' i num precision v j _ _ hok; exact absurd hok (by simp [fracLoop])
  | succ fuel ih =>
    intro fuel' i num precision v j hf hi hok
    obtain ⟨f', rfl⟩ : ∃ f', fuel' = f' + 1 := ⟨fuel' - 1, by omega⟩
    simp only [fracLoop] at hok ⊢
    cases hsrc : src[i]? with
    | none =>
      rw [hsrc] at hok
      cases hok
      have hieq : i = src.length := by
        have := List.getElem?_eq_none_iff.mp hsrc
        omega
      refine ⟨?_, hi⟩
      cases w with
      | nil => simp only [List.append_nil, hsrc]
      | cons b0 w' =>
        have hb0 := read_end_cons src b0 w' hieq
        have hwf := ws_facts (hw b0 (by simp))
        simp [hb0, hwf.1]
    | some ch =>
      simp only [hsrc] at hok
      simp only [read_app w hsrc]
      by_cases hd : isDigitB ch = true
      · rw [if_pos hd] at hok ⊢
        exact ih f' (i + 1) _ _ v j (by omega) (by have := getElem?_some_lt hsrc; omega) hok
      · rw [if_neg hd] at hok ⊢
        cases hok
        exact ⟨rfl, hi⟩

/-- Whitespace-extension for the exponent digit loop. -/
theorem expLoop_ext (src w : List Nat) (hw : ∀ x ∈ w, isWs x = true) :
    ∀ (fuel fuel' i : Nat) (e v : Int) (j : Nat), fuel ≤ fuel' → i ≤ src.length →
      expLoop fuel src i e = .ok v j →
      expLoop fuel' (src ++ w) i e = .ok v j ∧ j ≤ src.length := by
  intro fuel
  induction fuel with
  | zero => intro fuel' i e v j _ _ hok; exact absurd hok (by simp [expLoop])
  | succ fuel ih =>
    intro fuel' i e v j hf hi hok
    obtain ⟨f', rfl⟩ : ∃ f', fuel' = f' + 1 := ⟨fuel' - 1, by omega⟩
    simp only [expLoop] at hok ⊢
    cases hsrc : src[i]? with
    | none =>
      rw [hsrc] at hok
      cases hok
      have hieq : i = src.length := by
        have := List.getElem?_eq_none_iff.mp hsrc
        omega
      refine ⟨?_, hi⟩
      cases w with
      | nil => simp only [List.append_nil, hsrc]
      | cons b0 w' =>
        have hb0 := read_end_cons src b0 w' hieq
        have hwf := ws_facts (hw b0 (by simp))
        simp [hb0, hwf.1]
    | some ch =>
      simp only [hsrc] at hok
      simp only [read_app w hsrc]
      by_cases hd : isDigitB ch = true
      · rw [if_pos hd] at hok ⊢
        exact ih f' (i + 1) _ v j (by omega) (by have := getElem?_some_lt hsrc; omega) hok
      · rw [if_neg hd] at hok ⊢
        cases hok
        exact ⟨rfl, hi⟩

/-- Whitespace-extension for the exponent tail after the sign. -/
theorem expSignTail_ext (src w : List Nat) (hw : ∀ x ∈ w, isWs x = true)
    {fuel fuel' i2 : Nat} {sign : Int} {num v : F64} {j : Nat}
    (hf : fuel ≤ fuel') (hok : expSignTail fuel src i2 sign num = .ok v j) :
    expSignTail fuel' (src ++ w) i2 sign num = .ok v j ∧ j ≤ src.length := by
  unfold expSignTail at hok ⊢
  cases hsrc : src[i2]? with
  | none =>
    rw [hsrc] at hok
    exact absurd hok (by simp)
  | some dch =>
    simp only [hsrc] at hok
    simp only [read_app w hsrc]
    by_cases hd : isDigitB dch = true
    · rw [if_pos hd] at hok ⊢
      obtain ⟨e, i3, hexp, hok⟩ := bind_eq_ok hok
      have ee := expLoop_ext src w hw fuel fuel' (i2 + 1) _ e i3 hf
        (by have := getElem?_some_lt hsrc; omega) hexp
      rw [ee.1]
      simp only [Res.bind]
      cases hok
      exact ⟨rfl, ee.2⟩
    · rw [if_neg hd] at hok
      exact absurd hok (unexpected_character_ne_ok _ _ _ _ _)

/-- `numExponent` at the end of `src`, extended by whitespace, still accepts
with an unchanged result. -/
theorem numExponent_end_ws (src w : List Nat) (hw : ∀ x ∈ w, isWs x = true)
    {fuel i : Nat} {num : F64} (hi : i = src.length) :
    numExponent fuel (src ++ w) i num = .ok num i := by
  unfold numExponent
  cases w with
  | nil =>
    have hnone : (src ++ ([] : List Nat))[i]? = none := by
      rw [List.append_nil]
      exact List.getElem?_eq_none_iff.mpr (by omega)
    simp only [hnone]
  | cons b0 w' =>
    have hb0 := read_end_cons src b0 w' hi
    have hwf := ws_facts (hw b0 (by simp))
    simp [hb0, hwf.2.2.1, hwf.2.2.2.1]

/-- Whitespace-extension for `numExponent`. -/
theorem numExponent_ext (src w : List Nat) (hw : ∀ x ∈ w, isWs x = true)
    {fuel fuel' i : Nat} {num v : F64} {j : Nat}
    (hf : fuel ≤ fuel') (hi : i ≤ src.length)
    (hok : numExponent fuel src i num = .ok v j) :
    numExponent fuel' (src ++ w) i num = .ok v j ∧ j ≤ src.length := by
  cases hsrc : src[i]? with
  | none =>
    unfold numExponent at hok
    rw [hsrc] at hok
    cases hok
    have hieq : i = src.length := by
      have := List.getElem?_eq_none_iff.mp hsrc
      omega
    exact ⟨numExponent_end_ws src w hw hieq, hi⟩
  | some ch2 =>
    unfold numExponent at hok ⊢
    simp only [hsrc] at hok
    simp only [read_app w hsrc]
    by_cases he : ch2 = 101 ∨ ch2 = 69
    · rw [if_pos he] at hok ⊢
      cases hsrc2 : src[i + 1]? with
      | none =>
        rw [hsrc2] at hok
        exact absurd hok (by simp)
      | some sch =>
        simp only [hsrc2] at hok
        simp only [read_app w hsrc2]
        by_cases h45 : sch = 45
        · rw [if_pos h45] at hok ⊢
          exact expSignTail_ext src w hw hf hok
        · rw [if_neg h45] at hok ⊢
          by_cases h43 : sch = 43
          · rw [if_pos h43] at hok ⊢
            exact expSignTail_ext src w hw hf hok
          · rw [if_neg h43] at hok ⊢
            exact expSignTail_ext src w hw hf hok
    · rw [if_neg he] at hok ⊢
      cases hok
      exact ⟨rfl, hi⟩

/-- Whitespace-extension for `read_number_with_fraction`. -/
theorem read_number_with_fraction_ext (src w : List Nat) (hw : ∀ x ∈ w, isWs x = true)
    {fuel fuel' i : Nat} {num0 v : F64} {j : Nat}
    (hf : fuel ≤ fuel') (hi : i ≤ src.length)
    (hok : read_number_with_fraction fuel src i num0 = .ok v j) :
    read_number_with_fraction fuel' (src ++ w) i num0 = .ok v j ∧ j ≤ src.length := by
  unfold read_number_with_fraction at hok ⊢
  cases hsrc : src[i]? with
  | none =>
    rw [hsrc] at hok
    cases hok
    have hieq : i = src.length := by
      have := List.getElem?_eq_none_iff.mp hsrc
      omega
    refine ⟨?_, hi⟩
    cases w with
    | nil =>
      have hnone : (src ++ ([] : List Nat))[i]? = none := by
        rw [List.append_nil]
        exact List.getElem?_eq_none_iff.mpr (by omega)
      simp only [hnone]
    | cons b0 w' =>
      have hb0 := read_end_cons src b0 w' hieq
      have hwf := ws_facts (hw b0 (by simp))
      simp only [hb0, if_neg hwf.2.1, Res.bind]
      exact numExponent_end_ws src (b0 :: w') hw hieq
  | some ch =>
    simp only [hsrc] at hok
    simp only [read_app w hsrc]
    by_cases h46 : ch = 46
    · rw [if_pos h46] at hok ⊢
      obtain ⟨num1, i1, hfr, hok⟩ := bind_eq_ok hok
      have ef := fracLoop_ext src w hw fuel fuel' (i + 1) num0 f64Tenth num1 i1 hf
        (by have := getElem?_some_lt hsrc; omega) hfr
      rw [ef.1]
      simp only [Res.bind]
      exact numExponent_ext src w hw hf ef.2 hok
    · rw [if_neg h46] at hok ⊢
      simp only [Res.bind] at hok ⊢
      exact numExponent_ext src w hw hf hi hok

/-- Whitespace-extension for `read_big_number`. -/
theorem read_big_number_ext (src w : List Nat) (hw : ∀ x ∈ w, isWs x = true)
    {fuel fuel' i : Nat} {num v : F64} {j : Nat}
    (hf : fuel ≤ fuel') (hi : i ≤ src.length)
    (hok : read_big_number fuel src i num = .ok v j) :
    read_big_number fuel' (src ++ w) i num = .ok v j ∧ j ≤ src.length := by
  unfold read_big_number at hok ⊢
  obtain ⟨num1, i1, hbig, hok⟩ := bind_eq_ok hok
  have eb := bigNumLoop_ext src w hw fuel fuel' i num num1 i1 hf hi hbig
  rw [eb.1]
  simp only [Res.bind]
  exact read_number_with_fraction_ext src w hw hf eb.2 hok

/-- Whitespace-extension for the `expect_number!` loop. -/
theorem expect_number_ext (src w : List Nat) (hw : ∀ x ∈ w, isWs x = true) :
    ∀ (fuel fuel' i num digits : Nat) (v : F64) (j : Nat), fuel ≤ fuel' → i ≤ src.length →
      expect_number fuel src i num digits = .ok v j →
      expect_number fuel' (src ++ w) i num digits = .ok v j ∧ j ≤ src.length := by
  intro fuel
  induction fuel with
  | zero => intro fuel' i num digits v j _ _ hok; exact absurd hok (by simp [expect_number])
  | succ fuel ih =>
    intro fuel' i num digits v j hf hi hok
    obtain ⟨f', rfl⟩ : ∃ f', fuel' = f' + 1 := ⟨fuel' - 1, by omega⟩
    simp only [expect_number] at hok ⊢
    by_cases hd : digits = 18
    · rw [if_pos hd] at hok ⊢
      exact read_big_number_ext src w hw (by omega) hi hok
    · rw [if_neg hd] at hok ⊢
      cases hsrc : src[i]? with
      | none =>
        rw [hsrc] at hok
        cases hok
        have hieq : i = src.length := by
          have := List.getElem?_eq_none_iff.mp hsrc
          omega
        refine ⟨?_, hi⟩
        cases w with
        | nil => simp only [List.append_nil, hsrc]
        | cons b0 w' =>
          have hb0 := read_end_cons src b0 w' hieq
          have hwf := ws_facts (hw b0 (by simp))
          simp [hb0, hwf.1, hwf.2.1, hwf.2.2.1, hwf.2.2.2.1]
      | some ch =>
        simp only [hsrc] at hok
        simp only [read_app w hsrc]
        by_cases hdig : isDigitB ch = true
        · rw [if_pos hdig] at hok ⊢
          exact ih f' (i + 1) _ _ v j (by omega) (by have := getElem?_some_lt hsrc; omega) hok
        · rw [if_neg hdig] at hok ⊢
          by_cases hdot : ch = 46 ∨ ch = 101 ∨ ch = 69
          · rw [if_pos hdot] at hok ⊢
            exact read_number_with_fraction_ext src w hw (by omega) hi hok
          · rw [if_neg hdot] at hok ⊢
            cases hok
            exact ⟨rfl, hi⟩

/-- Whitespace-extension for `expect!`. -/
theorem expectByte_ext (src w : List Nat) {fuel fuel' i b : Nat} {j : Nat}
    (hf : fuel ≤ fuel') (hok : expectByte fuel src i b = .ok () j) :
    expectByte fuel' (src ++ w) i b = .ok () j ∧ j ≤ src.length := by
  unfold expectByte at hok ⊢
  cases hsrc : src[i]? with
  | none =>
    rw [hsrc] at hok
    exact absurd hok (by simp)
  | some ch =>
    simp only [hsrc] at hok
    simp only [read_app w hsrc]
    obtain ⟨ch1, i1, hcw, hok⟩ := bind_eq_ok hok
    have ec := consumeWs_ext src w hf (by have := getElem?_some_lt hsrc; omega) hcw
    rw [ec.1]
    simp only [Res.bind]
    by_cases hc : ch1 = b
    · rw [if_pos hc] at hok ⊢
      cases hok
      exact ⟨rfl, ec.2⟩
    · rw [if_neg hc] at hok
      exact absurd hok (unexpected_character_ne_ok _ _ _ _ _)

/-- Whitespace-extension for the value/array/object recursion: a successful
`pstep` run is unchanged on whitespace-extended input and ends within
`src`. -/
theorem pstep_ext (src w : List Nat) (hw : ∀ x ∈ w, isWs x = true) :
    ∀ (fuel fuel' : Nat) (k : PK) (i : Nat) (v : JsonValue) (j : Nat),
      fuel ≤ fuel' → i ≤ src.length →
      pstep fuel k src i = .ok v j →
      pstep fuel' k (src ++ w) i = .ok v j ∧ j ≤ src.length := by
  intro fuel
  induction fuel with
  | zero => intro fuel' k i v j _ _ hok; exact absurd hok (by simp [pstep])
  | succ fuel ih =>
    intro fuel' k i v j hf hi hok
    obtain ⟨f', rfl⟩ : ∃ f', fuel' = f' + 1 := ⟨fuel' - 1, by omega⟩
    cases k with
    | value =>
      simp only [pstep] at hok ⊢
      cases hsrc : src[i]? with
      | none =>
        rw [hsrc] at hok
        exact absurd hok (by simp)
      | some ch =>
        simp only [hsrc] at hok
        simp only [read_app w hsrc]
        obtain ⟨ch1, i1, hcw, hok⟩ := bind_eq_ok hok
        have ec := consumeWs_ext src w (by omega : fuel ≤ f')
          (by have := getElem?_some_lt hsrc; omega) hcw
        rw [ec.1]
        simp only [Res.bind]
        exact ih f' (.dispatch ch1) i1 v j (by omega) ec.2 hok
    | dispatch ch =>
      simp only [pstep] at hok ⊢
      by_cases h91 : ch = 91
      · rw [if_pos h91] at hok ⊢
        exact ih f' .arrayFirst i v j (by omega) hi hok
      · rw [if_neg h91] at hok ⊢
        by_cases h123 : ch = 123
        · rw [if_pos h123] at hok ⊢
          exact ih f' .objectFirst i v j (by omega) hi hok
        · rw [if_neg h123] at hok ⊢
          by_cases h34 : ch = 34
          · rw [if_pos h34] at hok ⊢
            obtain ⟨s, i1, hs, hok⟩ := bind_eq_ok hok
            have es := expect_string_ext src w fuel f' i i s i1 (by omega) hi hi hs
            rw [es.1]
            simp only [Res.bind]
            cases hok
            exact ⟨rfl, es.2⟩
          · rw [if_neg h34] at hok ⊢
            by_cases h48 : ch = 48
            · rw [if_pos h48] at hok ⊢
              obtain ⟨n, i1, hn, hok⟩ := bind_eq_ok hok
              have en := read_number_with_fraction_ext src w hw (by omega : fuel ≤ f') hi hn
              rw [en.1]
              simp only [Res.bind]
              cases hok
              exact ⟨rfl, en.2⟩
            · rw [if_neg h48] at hok ⊢
              by_cases hdig : isDigitB ch = true
              · rw [if_pos hdig] at hok ⊢
                obtain ⟨n, i1, hn, hok⟩ := bind_eq_ok hok
                have en := expect_number_ext src w hw fuel f' i (ch - 48) 0 n i1
                  (by omega) hi hn
                rw [en.1]
                simp only [Res.bind]
                cases hok
                exact ⟨rfl, en.2⟩
              · rw [if_neg hdig] at hok ⊢
                by_cases h45 : ch = 45
                · rw [if_pos h45] at hok ⊢
                  obtain ⟨n, i1, hn, hok⟩ := bind_eq_ok hok
                  cases hsrc : src[i]? with
                  | none =>
                    rw [hsrc] at hn
                    exact absurd hn (by simp)
                  | some ch2 =>
                    simp only [hsrc] at hn
                    simp only [read_app w hsrc]
                    by_cases h482 : ch2 = 48
                    · rw [if_pos h482] at hn ⊢
                      have en := read_number_with_fraction_ext src w hw (by omega : fuel ≤ f')
                        (by have := getElem?_some_lt hsrc; omega) hn
                      rw [en.1]
                      simp only [Res.bind]
                      cases hok
                      exact ⟨rfl, en.2⟩
                    · rw [if_neg h482] at hn ⊢
                      by_cases hdig2 : isDigitB ch2 = true
                      · rw [if_pos hdig2] at hn ⊢
                        have en := expect_number_ext src w hw fuel f' (i + 1) (ch2 - 48) 0 n i1
                          (by omega) (by have := getElem?_some_lt hsrc; omega) hn
                        rw [en.1]
                        simp only [Res.bind]
                        cases hok
                        exact ⟨rfl, en.2⟩
                      · rw [if_neg hdig2] at hn
                        exact absurd hn (unexpected_character_ne_ok _ _ _ _ _)
                · rw [if_neg h45] at hok ⊢
                  by_cases h116 : ch = 116
                  · rw [if_pos h116] at hok ⊢
                    obtain ⟨u, i1, hsq, hok⟩ := bind_eq_ok hok
                    cases u
                    have es := seqBytes_ext src w _ i i1 hi hsq
                    rw [es.1]
                    simp only [Res.bind]
                    cases hok
                    exact ⟨rfl, es.2⟩
                  · rw [if_neg h116] at hok ⊢
                    by_cases h102 : ch = 102
                    · rw [if_pos h102] at hok ⊢
                      obtain ⟨u, i1, hsq, hok⟩ := bind_eq_ok hok
                      cases u
                      have es := seqBytes_ext src w _ i i1 hi hsq
                      rw [es.1]
                      simp only [Res.bind]
                      cases hok
                      exact ⟨rfl, es.2⟩
                    · rw [if_neg h102] at hok ⊢
                      by_cases h110 : ch = 110
                      · rw [if_pos h110] at hok ⊢
                        obtain ⟨u, i1, hsq, hok⟩ := bind_eq_ok hok
                        cases u
                        have es := seqBytes_ext src w _ i i1 hi hsq
                        rw [es.1]
                        simp only [Res.bind]
                        cases hok
                        exact ⟨rfl, es.2⟩
                      · rw [if_neg h110] at hok
                        exact absurd hok (unexpected_character_ne_ok _ _ _ _ _)
    | arrayFirst =>
      simp only [pstep] at hok ⊢
      cases hsrc : src[i]? with
      | none =>
        rw [hsrc] at hok
        exact absurd hok (by simp)
      | some ch =>
        simp only [hsrc] at hok
        simp only [read_app w hsrc]
        obtain ⟨ch1, i1, hcw, hok⟩ := bind_eq_ok hok
        have ec := consumeWs_ext src w (by omega : fuel ≤ f')
          (by have := getElem?_some_lt hsrc; omega) hcw
        rw [ec.1]
        simp only [Res.bind]
        by_cases h93 : ch1 = 93
        · rw [if_pos h93] at hok ⊢
          cases hok
          exact ⟨rfl, ec.2⟩
        · rw [if_neg h93] at hok ⊢
          obtain ⟨first, i2, hfst, hok⟩ := bind_eq_ok hok
          have e1 := ih f' (.dispatch ch1) i1 first i2 (by omega) ec.2 hfst
          rw [e1.1]
          simp only [Res.bind]
          exact ih f' (.arrayNext [first]) i2 v j (by omega) e1.2 hok
    | arrayNext acc =>
      simp only [pstep] at hok ⊢
      cases hsrc : src[i]? with
      | none =>
        rw [hsrc] at hok
        exact absurd hok (by simp)
      | some ch =>
        simp only [hsrc] at hok
        simp only [read_app w hsrc]
        obtain ⟨ch1, i1, hcw, hok⟩ := bind_eq_ok hok
        have ec := consumeWs_ext src w (by omega : fuel ≤ f')
          (by have := getElem?_some_lt hsrc; omega) hcw
        rw [ec.1]
        simp only [Res.bind]
        by_cases h93 : ch1 = 93
        · rw [if_pos h93] at hok ⊢
          cases hok
          exact ⟨rfl, ec.2⟩
        · rw [if_neg h93] at hok ⊢
          by_cases h44 : ch1 = 44
          · rw [if_pos h44] at hok ⊢
            obtain ⟨vel, i2, hv, hok⟩ := bind_eq_ok hok
            have e1 := ih f' .value i1 vel i2 (by omega) ec.2 hv
            rw [e1.1]
            simp only [Res.bind]
            exact ih f' (.arrayNext (acc ++ [vel])) i2 v j (by omega) e1.2 hok
          · rw [if_neg h44] at hok
            exact absurd hok (unexpected_character_ne_ok _ _ _ _ _)
    | objectFirst =>
      simp only [pstep] at hok ⊢
      cases hsrc : src[i]? with
      | none =>
        rw [hsrc] at hok
        exact absurd hok (by simp)
      | some ch =>
        simp only [hsrc] at hok
        simp only [read_app w hsrc]
        obtain ⟨ch1, i1, hcw, hok⟩ := bind_eq_ok hok
        have ec := consumeWs_ext src w (by omega : fuel ≤ f')
          (by have := getElem?_some_lt hsrc; omega) hcw
        rw [ec.1]
        simp only [Res.bind]
        by_cases h125 : ch1 = 125
        · rw [if_pos h125] at hok ⊢
          cases hok
          exact ⟨rfl, ec.2⟩
        · rw [if_neg h125] at hok ⊢
          by_cases h34 : ch1 = 34
          · rw [if_pos h34] at hok ⊢
            obtain ⟨key, i2, hkey, hok⟩ := bind_eq_ok hok
            have e1 := expect_string_ext src w fuel f' i1 i1 key i2 (by omega) ec.2 ec.2 hkey
            rw [e1.1]
            simp only [Res.bind]
            obtain ⟨u, i3, hcol, hok⟩ := bind_eq_ok hok
            cases u
            have e2 := expectByte_ext src w (by omega : fuel ≤ f') hcol
            rw [e2.1]
            simp only [Res.bind]
            obtain ⟨vel, i4, hv, hok⟩ := bind_eq_ok hok
            have e3 := ih f' .value i3 vel i4 (by omega) e2.2 hv
            rw [e3.1]
            simp only [Res.bind]
            exact ih f' (.objectNext (btreeInsert [] key vel)) i4 v j (by omega) e3.2 hok
          · rw [if_neg h34] at hok
            exact absurd hok (unexpected_character_ne_ok _ _ _ _ _)
    | objectNext obj =>
      simp only [pstep] at hok ⊢
      cases hsrc : src[i]? with
      | none =>
        rw [hsrc] at hok
        exact absurd hok (by simp)
      | some ch =>
        simp only [hsrc] at hok
        simp only [read_app w hsrc]
        obtain ⟨ch1, i1, hcw, hok⟩ := bind_eq_ok hok
        have ec := consumeWs_ext src w (by omega : fuel ≤ f')
          (by have := getElem?_some_lt hsrc; omega) hcw
        rw [ec.1]
        simp only [Res.bind]
        by_cases h125 : ch1 = 125
        · rw [if_pos h125] at hok ⊢
          cases hok
          exact ⟨rfl, ec.2⟩
        · rw [if_neg h125] at hok ⊢
          by_cases h44 : ch1 = 44
          · rw [if_pos h44] at hok ⊢
            obtain ⟨u0, i1b, hq, hok⟩ := bind_eq_ok hok
            cases u0
            have e0 := expectByte_ext src w (by omega : fuel ≤ f') hq
            rw [e0.1]
            simp only [Res.bind]
            obtain ⟨key, i2, hkey, hok⟩ := bind_eq_ok hok
            have e1 := expect_string_ext src w fuel f' i1b i1b key i2 (by omega) e0.2 e0.2 hkey
            rw [e1.1]
            simp only [Res.bind]
            obtain ⟨u, i3, hcol, hok⟩ := bind_eq_ok hok
            cases u
            have e2 := expectByte_ext src w (by omega : fuel ≤ f') hcol
            rw [e2.1]
            simp only [Res.bind]
            obtain ⟨vel, i4, hv, hok⟩ := bind_eq_ok hok
            have e3 := ih f' .value i3 vel i4 (by omega) e2.2 hv
            rw [e3.1]
            simp only [Res.bind]
            exact ih f' (.objectNext (btreeInsert obj key vel)) i4 v j (by omega) e3.2 hok
          · rw [if_neg h44] at hok
            exact absurd hok (unexpected_character_ne_ok _ _ _ _ _)

/-- A successful `ensure_end` means only whitespace remained. -/
theorem ensure_end_ok_allWs :
    ∀ (fuel : Nat) (src : List Nat) (i j : Nat),
      ensure_end fuel src i = .ok () j → ∀ b ∈ src.drop i, isWs b = true := by
  intro fuel
  induction fuel with
  | zero => intro src i j hok; exact absurd hok (by simp [ensure_end])
  | succ fuel ih =>
    intro src i j hok b hbm
    simp only [ensure_end] at hok
    cases hsrc : src[i]? with
    | none =>
      have hlen : src.length ≤ i := List.getElem?_eq_none_iff.mp hsrc
      rw [List.drop_eq_nil_of_le hlen] at hbm
      cases hbm
    | some ch =>
      simp only [hsrc] at hok
      by_cases hws : isWs ch = true
      · rw [if_pos hws] at hok
        have hlt := getElem?_some_lt hsrc
        have hch : src[i] = ch := by
          have h2 : src[i]? = some src[i] := (List.getElem?_eq_some_getElem_iff src i hlt).mpr trivial
          rw [hsrc] at h2
          injection h2 with h3
          exact h3.symm
        have hdecomp : src.drop i = ch :: src.drop (i + 1) := by
          rw [List.drop_eq_getElem_cons hlt, hch]
        rw [hdecomp] at hbm
        rcases List.mem_cons.mp hbm with rfl | h2
        · exact hws
        · exact ih src (i + 1) j hok b h2
      · rw [if_neg hws] at hok
        exact absurd hok (unexpected_character_ne_ok _ _ _ _ _)

/-- `ensure_end` accepts any whitespace-only tail. -/
theorem ensure_end_of_allWs :
    ∀ (fuel : Nat) (src : List Nat) (i : Nat),
      src.length - i < fuel → (∀ b ∈ src.drop i, isWs b = true) →
      ∃ j, ensure_end fuel src i = .ok () j := by
  intro fuel
  induction fuel with
  | zero => intro src i h _; omega
  | succ fuel ih =>
    intro src i hfuel hall
    cases hsrc : src[i]? with
    | none => exact ⟨i, by simp only [ensure_end, hsrc]⟩
    | some ch =>
      have hlt := getElem?_some_lt hsrc
      have hch : src[i] = ch := by
        have h2 : src[i]? = some src[i] := (List.getElem?_eq_some_getElem_iff src i hlt).mpr trivial
        rw [hsrc] at h2
        injection h2 with h3
        exact h3.symm
      have hdecomp : src.drop i = ch :: src.drop (i + 1) := by
        rw [List.drop_eq_getElem_cons hlt, hch]
      have hws : isWs ch = true := hall ch (by rw [hdecomp]; simp)
      obtain ⟨j, hj⟩ := ih src (i + 1) (by omega)
        (by intro b hb; exact hall b (by rw [hdecomp]; simp [hb]))
      refine ⟨j, ?_⟩
      simp only [ensure_end, hsrc, hws, if_true]
      exact hj

/-- `ensure_end` on a whitespace prefix followed by a non-whitespace byte
calls `unexpected_character` just past that byte. -/
theorem ensure_end_trailing :
    ∀ (w0 : List Nat) (fuel : Nat) (src : List Nat) (i b : Nat) (rest : List Nat),
      src.drop i = w0 ++ b :: rest → (∀ x ∈ w0, isWs x = true) → isWs b = false →
      w0.length < fuel →
      ensure_end fuel src i = unexpected_character src (i + w0.length + 1) b := by
  intro w0
  induction w0 with
  | nil =>
    intro fuel src i b rest hdrop _ hnb hfuel
    obtain ⟨f, rfl⟩ : ∃ f, fuel = f + 1 := ⟨fuel - 1, by omega⟩
    have hb : src[i]? = some b := by
      have h0 := List.getElem?_drop src i 0
      rw [hdrop] at h0
      simpa using h0.symm
    simp only [ensure_end, hb, hnb, Bool.false_eq_true, if_false]
    simp
  | cons x w0' ih =>
    intro fuel src i b rest hdrop hws hnb hfuel
    obtain ⟨f, rfl⟩ : ∃ f, fuel = f + 1 := ⟨fuel - 1, by omega⟩
    have hx : src[i]? = some x := by
      have h0 := List.getElem?_drop src i 0
      rw [hdrop] at h0
      simpa using h0.symm
    have hxws := hws x (by simp)
    have hdrop' : src.drop (i + 1) = w0' ++ b :: rest := by
      have h1 : (src.drop i).drop 1 = src.drop (i + 1) := List.drop_drop 1 i src
      rw [hdrop] at h1
      simpa using h1.symm
    simp only [ensure_end, hx, hxws, if_true]
    rw [ih f src (i + 1) b rest hdrop' (fun y hy => hws y (by simp [hy])) hnb
      (by simp at hfuel; omega)]
    congr 1
    simp
    omega

/-- ASCII bytes have a clear top bit. -/
theorem and128_eq_zero : ∀ b < 128, b &&& 128 = 0 := by decide

/-- A byte is not a UTF-8 continuation byte when below 128. -/
theorem isCont_false_of_ascii {b : Nat} (h : b < 128) : isCont b = false := by
  simp [isCont]
  omega

/-- `source_position_from_index` just past an in-bounds ASCII byte. -/
theorem source_position_succ {src : List Nat} {p b : Nat}
    (hp : src[p]? = some b) (hb : b < 128) :
    source_position_from_index src (p + 1)
      = some (posLine (src.take p), posCol (src.take p)) := by
  have hlt := getElem?_some_lt hp
  have hpb : src[p] = b := by
    have h2 : src[p]? = some src[p] := (List.getElem?_eq_some_getElem_iff src p hlt).mpr trivial
    rw [hp] at h2
    injection h2 with h3
    exact h3.symm
  unfold source_position_from_index
  have e1 : p + 1 - 1 = p := by omega
  rw [if_neg (by omega), if_neg (by omega)]
  simp only [e1]
  rw [dif_pos hlt, hpb, isCont_false_of_ascii hb]
  simp

/-- `unexpected_character` on an in-bounds ASCII byte reports that byte with
the position computed from the strict prefix. -/
theorem unexpected_character_ascii {α : Type} {src : List Nat} {p b : Nat}
    (hp : src[p]? = some b) (hb : b < 128) :
    (unexpected_character src (p + 1) b : Res α)
      = Res.err (.unexpectedCharacter b (posLine (src.take p)) (posCol (src.take p))) := by
  unfold unexpected_character
  simp only [source_position_succ hp hb]
  rw [if_neg (by simpa using and128_eq_zero b hb)]

/-- Claim C7 (amended): extending a successfully parsed input with
whitespace still succeeds with the same value; and when, after the parsed
value, the remaining input is whitespace followed by a non-whitespace ASCII
byte `b`, `parse` fails with `UnexpectedCharacter` identifying `b` at the
position computed for it.  (A trailing non-ASCII byte instead enters the
multi-byte decode of C1, which can panic.) -/
theorem c7_whitespace_and_trailing :
    (∀ (src w : List Nat) (v : JsonValue) (j : Nat),
        (∀ x ∈ w, isWs x = true) → parse src = Res.ok v j →
        ∃ j', parse (src ++ w) = Res.ok v j') ∧
    (∀ (src : List Nat) (v : JsonValue) (j b : Nat) (rest : List Nat),
        pvalue (fuelFor src) src 0 = Res.ok v j →
        (src.drop j).dropWhile isWs = b :: rest →
        isWs b = false → b < 128 →
        parse src = Res.err (.unexpectedCharacter b
          (posLine (src.take (j + ((src.drop j).takeWhile isWs).length)))
          (posCol (src.take (j + ((src.drop j).takeWhile isWs).length))))) := by
  constructor
  · intro src w v j hw hok
    cases hres : pvalue (fuelFor src) src 0 with
    | ok v0 j0 =>
      unfold parse at hok
      rw [hres] at hok
      simp only [Res.bind] at hok
      cases hres2 : ensure_end (fuelFor src) src j0 with
      | ok u j1 =>
        rw [hres2] at hok
        simp only [Res.bind] at hok
        injection hok with hveq hjeq
        unfold pvalue at hres
        have hext := pstep_ext src w hw (fuelFor src) (fuelFor (src ++ w)) .value 0 v0 j0
          (by unfold fuelFor; simp) (by simp) hres
        have hwsall := ensure_end_ok_allWs (fuelFor src) src j0 j1 (by cases u; exact hres2)
        have hall2 : ∀ x ∈ (src ++ w).drop j0, isWs x = true := by
          rw [List.drop_append_of_le_length hext.2]
          intro x hx
          rcases List.mem_append.mp hx with hx | hx
          · exact hwsall x hx
          · exact hw x hx
        obtain ⟨j', hend'⟩ := ensure_end_of_allWs (fuelFor (src ++ w)) (src ++ w) j0
          (by unfold fuelFor; simp; omega) hall2
        refine ⟨j', ?_⟩
        unfold parse pvalue
        rw [hext.1]
        simp only [Res.bind]
        rw [hend']
        simp only [Res.bind]
        rw [hveq]
      | err e =>
        rw [hres2] at hok
        simp [Res.bind] at hok
      | crashed =>
        rw [hres2] at hok
        simp [Res.bind] at hok
      | fuelOut =>
        rw [hres2] at hok
        simp [Res.bind] at hok
    | err e =>
      unfold parse at hok
      rw [hres] at hok
      simp [Res.bind] at hok
    | crashed =>
      unfold parse at hok
      rw [hres] at hok
      simp [Res.bind] at hok
    | fuelOut =>
      unfold parse at hok
      rw [hres] at hok
      simp [Res.bind] at hok
  · intro src v j b rest hpv hdw hnb hb128
    set w0 : List Nat := (src.drop j).takeWhile isWs with hw0def
    have hsplit : src.drop j = w0 ++ b :: rest := by
      conv_lhs => rw [← List.takeWhile_append_dropWhile (p := isWs) (l := src.drop j)]
      rw [hdw]
    have hw0ws : ∀ x ∈ w0, isWs x = true := fun x hx => List.mem_takeWhile_imp hx
    have hbyte : src[j + w0.length]? = some b := by
      have h1 : (src.drop j)[w0.length]? = some b := by
        rw [hsplit, List.getElem?_append_right (le_refl _)]
        simp
      rw [List.getElem?_drop] at h1
      exact h1
    have hblt := getElem?_some_lt hbyte
    unfold parse
    rw [hpv]
    simp only [Res.bind]
    rw [ensure_end_trailing w0 (fuelFor src) src j b rest hsplit hw0ws hnb
      (by unfold fuelFor; omega)]
    rw [unexpected_character_ascii hbyte hb128]

/-- Claim C7 witness: `"1"` extended by a space still parses to `1.0`; and
`"1 x"` fails with `UnexpectedCharacter` for `x` at its position. -/
theorem c7_whitespace_and_trailing_witness :
    (∃ j', parse ([49] ++ [32]) = Res.ok (.number (.fin 1 0)) j') ∧
    parse [49, 32, 120] = Res.err (.unexpectedCharacter 120
      (posLine ([49, 32, 120].take (1 + (([49, 32, 120].drop 1).takeWhile isWs).length)))
      (posCol ([49, 32, 120].take (1 + (([49, 32, 120].drop 1).takeWhile isWs).length)))) := by
  constructor
  · exact c7_whitespace_and_trailing.1 [49] [32] (.number (.fin 1 0)) 1 (by decide) rfl
  · exact c7_whitespace_and_trailing.2 [49, 32, 120] (.number (.fin 1 0)) 1 120 []
      rfl rfl (by decide) (by decide)
